import Mathlib

/-! Sorted keyed array (`src/src/array.c`).

A shallow embedding of the sorted, growable array of key/value entries and of
its length-major, case-insensitive key comparator, followed by theorems about
lookup, insertion, replacement, merging, removal and bulk copy.

Conventions of the embedding

* a byte of memory (`unsigned char`) is a `Fin 256`; a block of memory reached
  through a `char *` is the list of its bytes;
* `uint32_t`, `size_t` and `int` values are `Nat` / `Int`; where the C code
  computes in 32 bits the reduction modulo `4294967296` is written out;
* a pointer to an entry is the entry record itself, which carries the address
  of its allocation in the field `addr`; `NULL` is `none`;
* the block `a->data` is the list of its `a->size` slots, so `a->size` is the
  length of that list;
* a function that can abort (`force_assert`) or leave defined behaviour
  returns in `Except Fault`; calls of `free`, of an allocator and of the merge
  capability are returned as a list of events, in program order.
-/

namespace Array_c

/-! ## Bytes and machine integers -/

/-- One byte of memory, the C type `unsigned char`. -/
abbrev Byte := Fin 256

/-- The read `((unsigned char *)p)[i]`, widened to `unsigned int`.  A read past
the modelled block yields 0. -/
def load_byte (p : List Byte) (i : Nat) : Nat := (p.getD i 0).val

/-- The conversion `(int)u` of a 32-bit unsigned value (two's complement). -/
def to_int (u : Nat) : Int :=
  if u < 2147483648 then (u : Int) else (u : Int) - 4294967296

/-- The conversion `(uint32_t)i` of a signed value. -/
def to_uint32 (i : Int) : Nat := (i % 4294967296).toNat

/-! ## The comparator (array.c:91-111) -/

/-- The loop of `array_caseless_compare`: `n` iterations remain and the loop
counter is `i`. -/
def array_caseless_compare_from (a b : List Byte) : Nat → Nat → Int
  | 0, _ => 0
  | n + 1, i =>
    let ca := load_byte a i
    let cb := load_byte b i
    if ca = cb then array_caseless_compare_from a b n (i + 1)
    else
      let ca := if 65 ≤ ca ∧ ca ≤ 90 then ca ||| 32 else ca
      let cb := if 65 ≤ cb ∧ cb ≤ 90 then cb ||| 32 else cb
      if ca = cb then array_caseless_compare_from a b n (i + 1)
      else to_int ((ca + 4294967296 - cb) % 4294967296)

/-- The function `array_caseless_compare(a, b, len)`. -/
def array_caseless_compare (a b : List Byte) (len : Nat) : Int :=
  array_caseless_compare_from a b len 0

/-- The function `array_keycmp(a, alen, b, blen)`. -/
def array_keycmp (a : List Byte) (alen : Nat) (b : List Byte) (blen : Nat) : Int :=
  if alen < blen then -1
  else if alen > blen then 1
  else array_caseless_compare a b blen

/-- The folding of the specification: the bytes 'A'..'Z' are lowercased (moved
up by 32), every other byte is left alone. -/
def ascii_fold (c : Nat) : Nat := if 65 ≤ c ∧ c ≤ 90 then c + 32 else c

/-- The folded byte of the block `p` at index `i`. -/
def folded (p : List Byte) (i : Nat) : Nat := ascii_fold (load_byte p i)

/-! ## Entries and containers -/

/-- Modelled from the spec: the variant kind of an entry (`data_type_t` of
array.h, which is not among the sources): string, nested container, integer,
or a host-defined kind. -/
inductive data_type_t
  | TYPE_STRING
  | TYPE_ARRAY
  | TYPE_INTEGER
  | TYPE_OTHER
  deriving DecidableEq, Repr

/-- Modelled from the spec: the byte buffer of buffer.h (not among the
sources).  `ptr` is the block of bytes, `used` is 0 for an empty buffer and the
string length plus one otherwise, `size` is the allocated size. -/
structure buffer where
  ptr : List Byte
  used : Nat
  size : Nat
  deriving DecidableEq, Repr

/-- Modelled from the spec: `buffer_is_empty` of buffer.h; the comment at
array.c:127 states it as `0 == b->used`. -/
def buffer_is_empty (b : buffer) : Bool := b.used == 0

/-- Modelled from the spec: `buffer_string_length` of buffer.h, the length of
the string without its terminator. -/
def buffer_string_length (b : buffer) : Nat := if b.used ≠ 0 then b.used - 1 else 0

/-- Modelled from the spec: `buffer_clear` of buffer.h, which makes the buffer
the empty one and keeps its block. -/
def buffer_clear (b : buffer) : buffer := { b with used := 0 }

/-- Modelled from the spec: `buffer_copy_string_len(b, s, len)` of buffer.h,
after which the buffer holds the first `len` bytes of `s` and a terminator. -/
def buffer_copy_string_len (b : buffer) (s : List Byte) (len : Nat) : buffer :=
  { ptr := (List.range len).map (fun i => s.getD i 0) ++ [0]
    used := len + 1
    size := max b.size (len + 1) }

/-- The payload of an entry after its common header: a `data_string` has a
`buffer value`, a `data_integer` an `int value`; other kinds are not modelled further. -/
inductive payload
  | string (value : buffer)
  | integer (value : Int)
  | other (tag : Nat)
  deriving DecidableEq, Repr

/-- An entry, `data_unset`: `addr` is the address of the allocation (the
identity of the pointer), `key` and `type` are the common header. -/
structure data_unset where
  addr : Nat
  key : buffer
  type : data_type_t
  value : payload
  deriving DecidableEq, Repr

/-- The field `value` seen through the cast `(data_string *)`. -/
def string_value (e : data_unset) : buffer :=
  match e.value with
  | .string v => v
  | _ => { ptr := [], used := 0, size := 0 }

/-- Modelled from the spec: the capabilities reached through `fn` (the method
tables live with the variant types, which are not among the sources).  `copy`
returns the deep copy of an entry; `insert_dup dst src` returns the payload of
`dst` after the merge and leaves the header of `dst` alone.  The capability
`free` is recorded as an event. -/
structure data_methods where
  copy : data_unset → data_unset
  insert_dup : data_unset → data_unset → payload

/-- The container `array`: the slots `data[0 .. size)` and the logical length
`used`. -/
structure array where
  data : List (Option data_unset)
  used : Nat
  deriving DecidableEq, Repr

/-- The field `a->size`, the number of slots of the block `a->data`. -/
def array.size (a : array) : Nat := a.data.length

/-- The ways in which a call does not return normally -/
inductive Fault
  | assertion
  | undefined
  | fuel
  deriving DecidableEq, Repr

/-- The calls that leave the container: `fn->free(e)`, an allocation by
`data_string_init` / `data_integer_init`, and `fn->insert_dup(dst, src)`. -/
inductive Event
  | free (e : data_unset)
  | alloc (e : data_unset)
  | insert_dup (dst src : data_unset)
  deriving DecidableEq, Repr

deriving instance DecidableEq for Except

/-! ## Slot accesses -/

/-- The read `d[i]` of a slot; outside the block it is undefined. -/
def load_slot (d : List (Option data_unset)) (i : Nat) : Except Fault (Option data_unset) :=
  match d[i]? with
  | some s => .ok s
  | none => .error .undefined

/-- The read `d[i]` followed by a dereference, as in `d[i]->key`. -/
def load_entry (d : List (Option data_unset)) (i : Nat) : Except Fault data_unset :=
  match d[i]? with
  | some (some e) => .ok e
  | _ => .error .undefined

/-- The write `d[i] = s`. -/
def store_slot (d : List (Option data_unset)) (i : Nat) (s : Option data_unset) :
    Except Fault (List (Option data_unset)) :=
  if i < d.length then .ok (d.set i s) else .error .undefined

/-- The call `memmove(d + dst, d + src, n * sizeof(*d))` on the slot block. -/
def memmove_slots (d : List (Option data_unset)) (dst src n : Nat) :
    Except Fault (List (Option data_unset)) :=
  if src + n ≤ d.length ∧ dst + n ≤ d.length then
    .ok (d.take dst ++ (d.drop src).take n ++ d.drop (dst + n))
  else .error .undefined

/-! ## The container operations -/

/-- The function `array_extend` (array.c:14-20): sixteen more slots, the slots
from `used` on zeroed. -/
def array_extend (a : array) : array :=
  let size := (a.size + 16) % 4294967296
  { a with data := a.data.take a.used ++ List.replicate (size - a.used) none }

/-- The function `array_init` (array.c:22-30). -/
def array_init : array := array_extend { data := [], used := 0 }

/-- The loop of `array_free_data` over the slots. -/
def array_free_slots : List (Option data_unset) → List Event
  | [] => []
  | some e :: rest => Event.free e :: array_free_slots rest
  | none :: rest => array_free_slots rest

/-- The function `array_free_data` (array.c:32-39): every occupied slot of
`[0, size)` is freed; the fields of `a` are not written. -/
def array_free_data (a : array) : List Event := array_free_slots a.data

/-- The loop of `array_copy_array`: `n` iterations remain, the counter is `i`. -/
def array_copy_array_loop (fns : data_methods) (src : array) :
    Nat → Nat → List (Option data_unset) → Except Fault (List (Option data_unset))
  | 0, _, d => .ok d
  | n + 1, i, d => do
    let e ← load_entry src.data i
    let d ← store_slot d i (some (fns.copy e))
    array_copy_array_loop fns src n (i + 1) d

/-- The function `array_copy_array(dst, src)` (array.c:41-53). -/
def array_copy_array (fns : data_methods) (dst src : array) :
    Except Fault (array × List Event) :=
  let freed := array_free_data dst
  if src.size = 0 then .ok (dst, freed)
  else do
    let d ← array_copy_array_loop fns src src.used 0 (List.replicate src.size none)
    pure ({ data := d, used := src.used }, freed)

/-- The comparison `array_keycmp(k, klen, b->ptr, b->used-1)` of
`array_get_index`, where `b` is the key of the entry `e`; `b->used-1` is
computed in 32 bits. -/
def entry_keycmp (k : List Byte) (klen : Nat) (e : data_unset) : Int :=
  array_keycmp k klen e.key.ptr ((e.key.used + 4294967295) % 4294967296)

/-- The loop of `array_get_index` with `fuel` iterations allowed. -/
def array_get_index_loop (a : array) (k : List Byte) (klen : Nat) :
    Nat → Nat → Nat → Except Fault Int
  | 0, lower, upper =>
    if lower ≠ upper then .error .fuel else .ok (-(to_int lower) - 1)
  | fuel + 1, lower, upper =>
    if lower ≠ upper then
      let probe := ((lower + upper) % 4294967296) / 2
      match load_entry a.data probe with
      | .error f => .error f
      | .ok e =>
        let cmp := entry_keycmp k klen e
        if cmp < 0 then array_get_index_loop a k klen fuel lower probe
        else if cmp > 0 then
          array_get_index_loop a k klen fuel ((probe + 1) % 4294967296) upper
        else .ok (to_int probe)
    else .ok (-(to_int lower) - 1)

/-- The function `array_get_index(a, k, klen)` (array.c:119-141). -/
def array_get_index (a : array) (k : List Byte) (klen : Nat) : Except Fault Int :=
  array_get_index_loop a k klen a.used 0 a.used

/-- The function `array_get_element_klen` (array.c:144-147). -/
def array_get_element_klen (a : array) (key : List Byte) (klen : Nat) :
    Except Fault (Option data_unset) :=
  match array_get_index a key klen with
  | .error f => .error f
  | .ok ipos => if ipos ≥ 0 then load_slot a.data ipos.toNat else .ok none

/-- The function `array_extract_element_klen` (array.c:155-168): the removed
entry and the container afterwards. -/
def array_extract_element_klen (a : array) (key : List Byte) (klen : Nat) :
    Except Fault (Option data_unset × array) :=
  match array_get_index a key klen with
  | .error f => .error f
  | .ok ipos =>
    if ipos < 0 then .ok (none, a)
    else do
      let entry ← load_slot a.data ipos.toNat
      let last_ndx := (a.used + 4294967295) % 4294967296
      let d ← if last_ndx ≠ to_uint32 ipos then
          memmove_slots a.data ipos.toNat (ipos.toNat + 1)
            ((last_ndx + 4294967296 - to_uint32 ipos) % 4294967296)
        else pure a.data
      let d ← store_slot d last_ndx none
      pure (entry, { data := d, used := last_ndx })

/-- The function `array_get_unused_element` (array.c:170-197, the branch that
is compiled): the cached entry or NULL, and the container afterwards. -/
def array_get_unused_element (a : array) (t : data_type_t) : Option data_unset × array :=
  let du := if a.used < a.size then a.data.getD a.used none else none
  match du with
  | some e =>
    if e.type = t then (some e, { a with data := a.data.set a.used none })
    else (none, a)
  | none => (none, a)

/-- The function `array_insert_data_at_pos` (array.c:199-217). -/
def array_insert_data_at_pos (a : array) (entry : data_unset) (pos : Nat) :
    Except Fault (array × List Event) :=
  if ¬ ((a.used + 1) % 4294967296 ≤ 2147483647) then .error .assertion
  else
    let a := if a.size = a.used then array_extend a else a
    let ndx := a.used
    do
      let prev ← load_slot a.data ndx
      let d ← if pos ≠ ndx then
          (if pos ≤ ndx then memmove_slots a.data (pos + 1) pos (ndx - pos)
           else .error .undefined)
        else pure a.data
      let d ← store_slot d pos (some entry)
      let freed := match prev with
        | some p => [Event.free p]
        | none => []
      pure ({ data := d, used := (a.used + 1) % 4294967296 }, freed)

/-- The function `array_insert_integer_at_pos` (array.c:219-228); `fresh` is
the entry that `data_integer_init()` returns. -/
def array_insert_integer_at_pos (a : array) (pos : Nat) (fresh : data_unset) :
    Except Fault (data_unset × array × List Event) := do
  let (a, evs) ← array_insert_data_at_pos a fresh pos
  pure (fresh, a, Event.alloc fresh :: evs)

/-- The function `array_insert_string_at_pos` (array.c:230-235); `fresh` is the
entry that `data_string_init()` returns when it is called. -/
def array_insert_string_at_pos (a : array) (pos : Nat) (fresh : data_unset) :
    Except Fault (data_unset × array × List Event) :=
  match array_get_unused_element a data_type_t.TYPE_STRING with
  | (some ds, a) => do
    let (a, evs) ← array_insert_data_at_pos a ds pos
    pure (ds, a, evs)
  | (none, a) => do
    let (a, evs) ← array_insert_data_at_pos a fresh pos
    pure (fresh, a, Event.alloc fresh :: evs)

/-- The function `array_get_int_ptr` (array.c:237-245).  The pointer returned
is given as the index of the slot whose entry holds the integer. -/
def array_get_int_ptr (a : array) (k : List Byte) (klen : Nat) (fresh : data_unset) :
    Except Fault (Nat × array × List Event) :=
  match array_get_index a k klen with
  | .error f => .error f
  | .ok ipos =>
    if ipos ≥ 0 then .ok (ipos.toNat, a, [])
    else do
      let pos := to_uint32 (-ipos - 1)
      let (di, a, evs) ← array_insert_integer_at_pos a pos fresh
      let di := { di with key := buffer_copy_string_len di.key k klen, value := payload.integer 0 }
      let d ← store_slot a.data pos (some di)
      pure (pos, { a with data := d }, evs)

/-- The function `array_get_buf_ptr` (array.c:247-255).  The pointer returned
is given as the index of the slot whose entry holds the buffer. -/
def array_get_buf_ptr (a : array) (k : List Byte) (klen : Nat) (fresh : data_unset) :
    Except Fault (Nat × array × List Event) :=
  match array_get_index a k klen with
  | .error f => .error f
  | .ok ipos =>
    if ipos ≥ 0 then .ok (ipos.toNat, a, [])
    else do
      let pos := to_uint32 (-ipos - 1)
      let (ds, a, evs) ← array_insert_string_at_pos a pos fresh
      let ds := { ds with key := buffer_copy_string_len ds.key k klen,
                          value := payload.string (buffer_clear (string_value ds)) }
      let d ← store_slot a.data pos (some ds)
      pure (pos, { a with data := d }, evs)

/-- The function `array_insert_value` (array.c:257-261). -/
def array_insert_value (a : array) (v : List Byte) (vlen : Nat) (fresh : data_unset) :
    Except Fault (array × List Event) := do
  let pos := a.used
  let (ds, a, evs) ← array_insert_string_at_pos a pos fresh
  let ds := { ds with key := buffer_clear ds.key,
                      value := payload.string (buffer_copy_string_len (string_value ds) v vlen) }
  let d ← store_slot a.data pos (some ds)
  pure ({ a with data := d }, evs)

/-- The function `array_find_or_insert` (array.c:265-280).  The result is the
index of the slot of the existing entry (the `data_unset **` returned), or
`none` after an insertion.  `entry` is not NULL by its type. -/
def array_find_or_insert (a : array) (entry : data_unset) :
    Except Fault (Option Nat × array × List Event) :=
  if buffer_is_empty entry.key then do
    let (a, evs) ← array_insert_data_at_pos a entry a.used
    pure (none, a, evs)
  else
    match array_get_index a entry.key.ptr (buffer_string_length entry.key) with
    | .error f => .error f
    | .ok ipos =>
      if ipos ≥ 0 then .ok (some ipos.toNat, a, [])
      else do
        let (a, evs) ← array_insert_data_at_pos a entry (to_uint32 (-ipos - 1))
        pure (none, a, evs)

/-- The function `array_replace` (array.c:283-291). -/
def array_replace (a : array) (entry : data_unset) : Except Fault (array × List Event) :=
  match array_find_or_insert a entry with
  | .error f => .error f
  | .ok (none, a, evs) => .ok (a, evs)
  | .ok (some old, a, evs) => do
    let o ← load_entry a.data old
    if o.addr = entry.addr then .error .assertion
    else do
      let d ← store_slot a.data old (some entry)
      pure ({ a with data := d }, evs ++ [Event.free o])

/-- The function `array_insert_unique` (array.c:293-300). -/
def array_insert_unique (fns : data_methods) (a : array) (entry : data_unset) :
    Except Fault (array × List Event) :=
  match array_find_or_insert a entry with
  | .error f => .error f
  | .ok (none, a, evs) => .ok (a, evs)
  | .ok (some old, a, evs) => do
    let o ← load_entry a.data old
    if o.type ≠ entry.type then .error .assertion
    else do
      let d ← store_slot a.data old (some { o with value := fns.insert_dup o entry })
      pure ({ a with data := d }, evs ++ [Event.insert_dup o entry])

/-! ## Ranks of keys (used to state and prove order properties) -/

/-- The number whose base-256 digits are the folded bytes `p[i .. i+n)`, most
significant first. -/
def fold_value (p : List Byte) : Nat → Nat → Nat
  | 0, _ => 0
  | n + 1, i => folded p i * 256 ^ n + fold_value p n (i + 1)

/-- The rank of the key `(p, len)`: keys are ordered by `array_keycmp` as their
ranks are ordered by `<`. -/
def key_rank (p : List Byte) (len : Nat) : Nat := 256 ^ len + fold_value p len 0

/-- The rank of the key of an entry as `array_get_index` reads it. -/
def entry_rank (e : data_unset) : Nat :=
  key_rank e.key.ptr ((e.key.used + 4294967295) % 4294967296)

/-! ## Well-formed and sorted containers -/

/-- Decision procedure for "the slot read `x` is an entry satisfying `P`". -/
instance decidable_slot_entry (x : Option (Option data_unset)) (P : data_unset → Prop)
    [DecidablePred P] : Decidable (∃ e, x = some (some e) ∧ P e) :=
  match x with
  | some (some e) =>
    if h : P e then isTrue ⟨e, rfl, h⟩
    else isFalse (fun ⟨_, h1, h2⟩ => h (by cases h1; exact h2))
  | some none => isFalse (fun ⟨_, h1, _⟩ => by cases h1)
  | none => isFalse (fun ⟨_, h1, _⟩ => by cases h1)

/-- A container in a state that the operations themselves produce: the logical
length does not exceed the capacity nor `INT32_MAX` (the bound asserted by
`array_insert_data_at_pos`), the logical slots `[0, used)` hold entries, and
the `used` field of each key is a 32-bit value. -/
def array_ok (a : array) : Prop :=
  a.used ≤ a.size ∧ a.used ≤ 2147483647 ∧
  ∀ i, i < a.used → ∃ e, a.data[i]? = some (some e) ∧ e.key.used < 4294967296

/-- The key of `x` sorts strictly before the key of `y` under `array_keycmp`. -/
def key_lt (x y : data_unset) : Prop :=
  entry_keycmp x.key.ptr (buffer_string_length x.key) y < 0

/-- A sorted keyed container: well-formed, every logical entry has a non-empty
key, and the keys of `[0, used)` are strictly ascending under `array_keycmp`. -/
def sorted_keyed (a : array) : Prop :=
  array_ok a ∧
  (∀ i, i < a.used → ∃ e, a.data[i]? = some (some e) ∧ e.key.used ≠ 0) ∧
  (∀ j, j < a.used → ∀ i, i < j →
    ∃ x, a.data[i]? = some (some x) ∧ ∃ y, a.data[j]? = some (some y) ∧ key_lt x y)

instance decidable_array_ok (a : array) : Decidable (array_ok a) := by
  unfold array_ok
  infer_instance

instance decidable_key_lt (x y : data_unset) : Decidable (key_lt x y) := by
  unfold key_lt
  infer_instance

instance decidable_sorted_keyed (a : array) : Decidable (sorted_keyed a) := by
  unfold sorted_keyed
  infer_instance

/-- The slot block on which `array_insert_data_at_pos` works: sixteen empty
slots more when the container is full. -/
def grown (a : array) : List (Option data_unset) :=
  if a.size = a.used then a.data ++ List.replicate 16 none else a.data

/-- The events of `array_insert_data_at_pos`: the cached entry at the old index
`used`, if there is one, is freed. -/
def cached_free (a : array) : List Event :=
  match (grown a)[a.used]? with
  | some (some p) => [Event.free p]
  | _ => []

/-- The logical part of `a'` is the logical part of `a` with the entry `E` put
in at index `p`, the entries from `p` on moved up by one. -/
def inserted_at (a a' : array) (p : Nat) (E : data_unset) : Prop :=
  a'.used = a.used + 1 ∧ a'.used ≤ a'.size ∧
  (∀ i, i < p → a'.data[i]? = a.data[i]?) ∧
  a'.data[p]? = some (some E) ∧
  (∀ i, p < i → i ≤ a.used → a'.data[i]? = a.data[i - 1]?)

/-- The logical part of `a'` is the logical part of `a` without its entry at
index `p`, the entries after `p` moved down by one. -/
def removed_at (a a' : array) (p : Nat) : Prop :=
  a'.used + 1 = a.used ∧ a'.size = a.size ∧
  (∀ i, i < p → a'.data[i]? = a.data[i]?) ∧
  (∀ i, p ≤ i → i < a'.used → a'.data[i]? = a.data[i + 1]?)

/-! ## Sample data -/

/-- An entry with the key `k` (stored with its terminator) at address `addr`. -/
def sample_entry (addr : Nat) (k : List Byte) (t : data_type_t) : data_unset :=
  { addr := addr
    key := { ptr := k ++ [0], used := k.length + 1, size := k.length + 1 }
    type := t
    value := payload.string { ptr := [], used := 0, size := 0 } }

/-- A container of capacity 4 holding the keys "b", "Z" and "aa", in the order
of `array_keycmp`. -/
def sample_array : array :=
  { data := [some (sample_entry 1 [98] data_type_t.TYPE_STRING),
             some (sample_entry 2 [90] data_type_t.TYPE_STRING),
             some (sample_entry 3 [97, 97] data_type_t.TYPE_STRING), none]
    used := 3 }

/-- Capabilities for the sample runs: the copy lives 1000 addresses further,
the merge keeps the payload of the incoming entry. -/
def sample_methods : data_methods :=
  { copy := fun e => { e with addr := e.addr + 1000 }
    insert_dup := fun _ src => src.value }

/-! ## Sequences of keyed insertions -/

/-- One keyed insertion: a call of `array_get_buf_ptr`, `array_get_int_ptr`,
`array_replace` or `array_insert_unique`. -/
inductive insert_op
  | get_buf_ptr (k : List Byte) (klen : Nat) (fresh : data_unset)
  | get_int_ptr (k : List Byte) (klen : Nat) (fresh : data_unset)
  | replace (entry : data_unset)
  | insert_unique (entry : data_unset)

/-- The bytes of the key that the call works with. -/
def insert_op.key : insert_op → List Byte
  | .get_buf_ptr k _ _ => k
  | .get_int_ptr k _ _ => k
  | .replace entry => entry.key.ptr
  | .insert_unique entry => entry.key.ptr

/-- The length of the key that the call works with. -/
def insert_op.klen : insert_op → Nat
  | .get_buf_ptr _ klen _ => klen
  | .get_int_ptr _ klen _ => klen
  | .replace entry => buffer_string_length entry.key
  | .insert_unique entry => buffer_string_length entry.key

/-- The key of the call is a non-empty buffer, or a string that fits one. -/
def insert_op.keyed : insert_op → Prop
  | .get_buf_ptr _ klen _ => klen < 4294967295
  | .get_int_ptr _ klen _ => klen < 4294967295
  | .replace entry => entry.key.used ≠ 0 ∧ entry.key.used < 4294967296
  | .insert_unique entry => entry.key.used ≠ 0 ∧ entry.key.used < 4294967296

/-- The container after the call. -/
def insert_op.run (fns : data_methods) (a : array) : insert_op → Except Fault array
  | .get_buf_ptr k klen fresh =>
    match array_get_buf_ptr a k klen fresh with
    | .ok (_, a', _) => .ok a'
    | .error f => .error f
  | .get_int_ptr k klen fresh =>
    match array_get_int_ptr a k klen fresh with
    | .ok (_, a', _) => .ok a'
    | .error f => .error f
  | .replace entry =>
    match array_replace a entry with
    | .ok (a', _) => .ok a'
    | .error f => .error f
  | .insert_unique entry =>
    match array_insert_unique fns a entry with
    | .ok (a', _) => .ok a'
    | .error f => .error f

/-- The container after a sequence of keyed insertions, first to last. -/
def run_inserts (fns : data_methods) : array → List insert_op → Except Fault array
  | a, [] => .ok a
  | a, op :: ops =>
    match op.run fns a with
    | .ok a' => run_inserts fns a' ops
    | .error f => .error f

instance decidable_insert_op_keyed (op : insert_op) : Decidable op.keyed := by
  cases op <;> (simp only [insert_op.keyed]; infer_instance)

/-- The addresses of the entries that the slots `[0, size)` hold. -/
def owned_addrs (a : array) : List Nat :=
  a.data.filterMap (fun s => s.map data_unset.addr)

/-- The number of calls of `free` on the entry at address `addr`. -/
def freed_count (addr : Nat) : List Event → Nat
  | [] => 0
  | Event.free e :: rest => (if e.addr = addr then 1 else 0) + freed_count addr rest
  | Event.alloc _ :: rest => freed_count addr rest
  | Event.insert_dup _ _ :: rest => freed_count addr rest

/-- A container holding the header names "Host" and "Accept". -/
def sample_headers : array :=
  { data := [some (sample_entry 1 [72, 111, 115, 116] data_type_t.TYPE_STRING),
             some (sample_entry 2 [65, 99, 99, 101, 112, 116] data_type_t.TYPE_STRING),
             none, none]
    used := 2 }

/-! ## Mixed runs: appends of empty-key entries among keyed operations -/

/-- One call on a container. -/
inductive array_op
  | insert_value (v : List Byte) (vlen : Nat) (fresh : data_unset)
  | replace (entry : data_unset)
  | insert_unique (entry : data_unset)
  | get_buf_ptr (k : List Byte) (klen : Nat) (fresh : data_unset)
  | get_int_ptr (k : List Byte) (klen : Nat) (fresh : data_unset)
  | extract (k : List Byte) (klen : Nat)

/-- The container after the call. -/
def array_op.run (fns : data_methods) (a : array) : array_op → Except Fault array
  | .insert_value v vlen fresh =>
    match array_insert_value a v vlen fresh with
    | .ok (a', _) => .ok a'
    | .error f => .error f
  | .replace entry =>
    match array_replace a entry with
    | .ok (a', _) => .ok a'
    | .error f => .error f
  | .insert_unique entry =>
    match array_insert_unique fns a entry with
    | .ok (a', _) => .ok a'
    | .error f => .error f
  | .get_buf_ptr k klen fresh =>
    match array_get_buf_ptr a k klen fresh with
    | .ok (_, a', _) => .ok a'
    | .error f => .error f
  | .get_int_ptr k klen fresh =>
    match array_get_int_ptr a k klen fresh with
    | .ok (_, a', _) => .ok a'
    | .error f => .error f
  | .extract k klen =>
    match array_extract_element_klen a k klen with
    | .ok (_, a') => .ok a'
    | .error f => .error f

/-- The keys of the call are 32-bit buffers: the `used` field of an entry key
is a 32-bit value, and a probe string is short enough to be held by a buffer. -/
def array_op.fits : array_op → Prop
  | .insert_value _ _ _ => True
  | .replace entry => entry.key.used < 4294967296
  | .insert_unique entry => entry.key.used < 4294967296
  | .get_buf_ptr _ klen _ => klen < 4294967295
  | .get_int_ptr _ klen _ => klen < 4294967295
  | .extract _ klen => klen < 4294967295

instance decidable_array_op_fits (op : array_op) : Decidable op.fits := by
  cases op <;> (simp only [array_op.fits]; infer_instance)

/-- A zero-initialised `array` structure: no block, `used = 0`, `size = 0`. -/
def zero_array : array := { data := [], used := 0 }

/-! ## Keys of the logical entries -/

/-- The bytes of the key string of an entry, without the terminator. -/
def key_bytes (e : data_unset) : List Byte := e.key.ptr.take (buffer_string_length e.key)

/-- The keys of the logical entries `[0, used)`, in index order (`none` for an
empty slot). -/
def logical_keys (a : array) : List (Option (List Byte)) :=
  (a.data.take a.used).map (fun s => s.map key_bytes)

/-- The buffer holding the string `k` and its terminator. -/
def key_buffer (k : List Byte) : buffer :=
  { ptr := k ++ [0], used := k.length + 1, size := k.length + 1 }

/-! ## The matching queries (array.c:340-350, 404-417, 464-479) -/

/-- The loop of the C library function `memcmp`: `n` bytes remain, the blocks
are read at the offsets `i` and `j`. -/
def memcmp_from (p q : List Byte) : Nat → Nat → Nat → Int
  | 0, _, _ => 0
  | n + 1, i, j =>
    let x := load_byte p i
    let y := load_byte q j
    if x = y then memcmp_from p q n (i + 1) (j + 1) else (x : Int) - (y : Int)

/-- The call `memcmp(p + off, q, n)`. -/
def memcmp (p : List Byte) (off : Nat) (q : List Byte) (n : Nat) : Int :=
  memcmp_from p q n off 0

/-- The loop of `array_match_key_prefix_klen`: `n` iterations remain, the
counter is `i`. -/
def array_match_key_prefix_klen_loop (a : array) (s : List Byte) (slen : Nat) :
    Nat → Nat → Except Fault (Option data_unset)
  | 0, _ => .ok none
  | n + 1, i =>
    match load_entry a.data i with
    | .error f => .error f
    | .ok e =>
      let klen := buffer_string_length e.key
      if klen ≤ slen ∧ 0 = memcmp s 0 e.key.ptr klen then .ok (some e)
      else array_match_key_prefix_klen_loop a s slen n (i + 1)

/-- The function `array_match_key_prefix_klen(a, s, slen)` (array.c:340-350). -/
def array_match_key_prefix_klen (a : array) (s : List Byte) (slen : Nat) :
    Except Fault (Option data_unset) :=
  array_match_key_prefix_klen_loop a s slen a.used 0

/-- The loop of `array_match_key_suffix`: `n` iterations remain, the counter is
`i`; `end - klen` is the offset `blen - klen` into the block of `b`. -/
def array_match_key_suffix_loop (a : array) (b : buffer) (blen : Nat) :
    Nat → Nat → Except Fault (Option data_unset)
  | 0, _ => .ok none
  | n + 1, i =>
    match load_entry a.data i with
    | .error f => .error f
    | .ok e =>
      let klen := buffer_string_length e.key
      if klen ≤ blen ∧ 0 = memcmp b.ptr (blen - klen) e.key.ptr klen then .ok (some e)
      else array_match_key_suffix_loop a b blen n (i + 1)

/-- The function `array_match_key_suffix(a, b)` (array.c:404-417). -/
def array_match_key_suffix (a : array) (b : buffer) : Except Fault (Option data_unset) :=
  array_match_key_suffix_loop a b (buffer_string_length b) a.used 0

/-- The loop of `array_match_path_or_ext`: `n` iterations remain, the counter
is `i`; the byte '/' is 47.  Once `klen <= blen` holds the condition reads
`*(key->ptr)`; a key without a block (`ptr` is NULL, the empty list here) makes
that read undefined. -/
def array_match_path_or_ext_loop (a : array) (b : buffer) (blen : Nat) :
    Nat → Nat → Except Fault (Option data_unset)
  | 0, _ => .ok none
  | n + 1, i =>
    match load_entry a.data i with
    | .error f => .error f
    | .ok e =>
      let klen := buffer_string_length e.key
      if klen ≤ blen then
        if e.key.ptr = [] then .error .undefined
        else if 0 = memcmp b.ptr (if load_byte e.key.ptr 0 = 47 then 0 else blen - klen)
            e.key.ptr klen then .ok (some e)
        else array_match_path_or_ext_loop a b blen n (i + 1)
      else array_match_path_or_ext_loop a b blen n (i + 1)

/-- The function `array_match_path_or_ext(a, b)` (array.c:464-479). -/
def array_match_path_or_ext (a : array) (b : buffer) : Except Fault (Option data_unset) :=
  array_match_path_or_ext_loop a b (buffer_string_length b) a.used 0

/-- The key of `e` is no longer than the probe `(s, slen)` and its bytes are the
first bytes of the probe. -/
def key_starts (s : List Byte) (slen : Nat) (e : data_unset) : Prop :=
  buffer_string_length e.key ≤ slen ∧
  ∀ t, t < buffer_string_length e.key → load_byte e.key.ptr t = load_byte s t

/-- The key of `e` is no longer than the probe `(s, slen)` and its bytes are the
last bytes of the probe. -/
def key_ends (s : List Byte) (slen : Nat) (e : data_unset) : Prop :=
  buffer_string_length e.key ≤ slen ∧
  ∀ t, t < buffer_string_length e.key →
    load_byte e.key.ptr t = load_byte s (slen - buffer_string_length e.key + t)

/-- The rule of `array_match_path_or_ext` for one entry: a key whose first byte
is '/' has to start the probe, any other key has to end it. -/
def path_or_ext_rule (s : List Byte) (slen : Nat) (e : data_unset) : Prop :=
  if load_byte e.key.ptr 0 = 47 then key_starts s slen e else key_ends s slen e

instance decidable_key_starts (s : List Byte) (slen : Nat) (e : data_unset) :
    Decidable (key_starts s slen e) := by
  unfold key_starts
  infer_instance

instance decidable_key_ends (s : List Byte) (slen : Nat) (e : data_unset) :
    Decidable (key_ends s slen e) := by
  unfold key_ends
  infer_instance

instance decidable_path_or_ext_rule (s : List Byte) (slen : Nat) (e : data_unset) :
    Decidable (path_or_ext_rule s slen e) := by
  unfold path_or_ext_rule
  infer_instance

/-- The linear scan shared by the matching queries: the first logical entry
from index `i` on, among `n`, that satisfies `P`. -/
def scan_slots (a : array) (P : data_unset → Prop) [DecidablePred P] :
    Nat → Nat → Except Fault (Option data_unset)
  | 0, _ => .ok none
  | n + 1, i =>
    match load_entry a.data i with
    | .error f => .error f
    | .ok e => if P e then .ok (some e) else scan_slots a P n (i + 1)

/-! ## Sample runs for the ordering and matching checks -/

/-- The keys "Z", "aa", "b", in this order, inserted by `array_insert_unique`. -/
def zab_insert_unique : List insert_op :=
  [insert_op.insert_unique (sample_entry 1 [90] data_type_t.TYPE_STRING),
   insert_op.insert_unique (sample_entry 2 [97, 97] data_type_t.TYPE_STRING),
   insert_op.insert_unique (sample_entry 3 [98] data_type_t.TYPE_STRING)]

/-- The keys "Z", "aa", "b", in this order, inserted by `array_replace`. -/
def zab_replace : List insert_op :=
  [insert_op.replace (sample_entry 1 [90] data_type_t.TYPE_STRING),
   insert_op.replace (sample_entry 2 [97, 97] data_type_t.TYPE_STRING),
   insert_op.replace (sample_entry 3 [98] data_type_t.TYPE_STRING)]

/-- The keys "Z", "aa", "b", in this order, inserted by `array_get_buf_ptr`. -/
def zab_get_buf_ptr : List insert_op :=
  [insert_op.get_buf_ptr [90] 1 (sample_entry 1 [] data_type_t.TYPE_STRING),
   insert_op.get_buf_ptr [97, 97] 2 (sample_entry 2 [] data_type_t.TYPE_STRING),
   insert_op.get_buf_ptr [98] 1 (sample_entry 3 [] data_type_t.TYPE_STRING)]

/-- The keys "Z", "aa", "b", in this order, inserted by `array_get_int_ptr`. -/
def zab_get_int_ptr : List insert_op :=
  [insert_op.get_int_ptr [90] 1 (sample_entry 1 [] data_type_t.TYPE_INTEGER),
   insert_op.get_int_ptr [97, 97] 2 (sample_entry 2 [] data_type_t.TYPE_INTEGER),
   insert_op.get_int_ptr [98] 1 (sample_entry 3 [] data_type_t.TYPE_INTEGER)]

/-- The entry keyed "/images". -/
def images_entry : data_unset :=
  sample_entry 1 [47, 105, 109, 97, 103, 101, 115] data_type_t.TYPE_STRING

/-- The entry keyed ".png". -/
def png_entry : data_unset := sample_entry 2 [46, 112, 110, 103] data_type_t.TYPE_STRING

/-- The probe "/images/logo.png". -/
def logo_png : buffer :=
  key_buffer [47, 105, 109, 97, 103, 101, 115, 47, 108, 111, 103, 111, 46, 112, 110, 103]

/-- The probe "/images/logo.gif". -/
def logo_gif : buffer :=
  key_buffer [47, 105, 109, 97, 103, 101, 115, 47, 108, 111, 103, 111, 46, 103, 105, 102]

/-- The container of `array_init` after inserting the entries keyed "/images"
and ".png", in this order, by `array_insert_unique`. -/
def rules_inserted : Except Fault array :=
  run_inserts sample_methods array_init
    [insert_op.insert_unique images_entry, insert_op.insert_unique png_entry]

/-- The same two entries inserted in the other order by `array_replace`. -/
def rules_replaced : Except Fault array :=
  run_inserts sample_methods array_init
    [insert_op.replace png_entry, insert_op.replace images_entry]

/-! ## The soft reset and the refill of a string container -/

/-- Modelled from the spec: `buffer_reset` of buffer.h (not among the sources),
which shrinks the buffer back to empty, releasing its block. -/
def buffer_reset (_b : buffer) : buffer := { ptr := [], used := 0, size := 0 }

/-- The body of the loop of `array_reset_data_strings` (array.c:69-73) on one
entry.  `BUFFER_MAX_REUSE_SIZE` is the constant of settings.h, which is not
among the sources; it is a parameter here. -/
def reset_strings (BUFFER_MAX_REUSE_SIZE : Nat) (ds : data_unset) : data_unset :=
  let k := ds.key
  let v := string_value ds
  let ds := if k.size > BUFFER_MAX_REUSE_SIZE then { ds with key := buffer_reset k } else ds
  if v.size > BUFFER_MAX_REUSE_SIZE then { ds with value := payload.string (buffer_reset v) }
  else ds

/-- The loop of `array_reset_data_strings` (array.c:68-74): `n` iterations are
left, the next one at index `i`. -/
def array_reset_data_strings_loop (BUFFER_MAX_REUSE_SIZE : Nat) :
    Nat → Nat → List (Option data_unset) → Except Fault (List (Option data_unset))
  | 0, _, d => .ok d
  | n + 1, i, d => do
    let ds ← load_entry d i
    let d ← store_slot d i (some (reset_strings BUFFER_MAX_REUSE_SIZE ds))
    array_reset_data_strings_loop BUFFER_MAX_REUSE_SIZE n (i + 1) d

/-- The function `array_reset_data_strings` (array.c:61-75); the container is
not NULL by its type. -/
def array_reset_data_strings (BUFFER_MAX_REUSE_SIZE : Nat) (a : array) : Except Fault array := do
  let used := a.used
  let d ← array_reset_data_strings_loop BUFFER_MAX_REUSE_SIZE used 0 a.data
  pure { data := d, used := 0 }

/-- One string insertion: a call of `array_insert_value` or of
`array_get_buf_ptr`. -/
inductive string_op
  | insert_value (v : List Byte) (vlen : Nat) (fresh : data_unset)
  | get_buf_ptr (k : List Byte) (klen : Nat) (fresh : data_unset)

/-- The key of a call of `array_get_buf_ptr` is a string that fits a buffer. -/
def string_op.fits : string_op → Prop
  | .insert_value _ _ _ => True
  | .get_buf_ptr _ klen _ => klen < 4294967295

instance decidable_string_op_fits (op : string_op) : Decidable op.fits := by
  cases op <;> unfold string_op.fits <;> infer_instance

/-- The call inserts: it is `array_insert_value`, or `array_get_buf_ptr` with a
key that no logical entry has. -/
def string_op.absent (a : array) : string_op → Prop
  | .insert_value _ _ _ => True
  | .get_buf_ptr k klen _ =>
    ∀ i, i < a.used → ∃ e, a.data[i]? = some (some e) ∧ entry_keycmp k klen e ≠ 0

/-- The container after the call, and the entries allocated and freed by it. -/
def string_op.run (a : array) : string_op → Except Fault (array × List Event)
  | .insert_value v vlen fresh => array_insert_value a v vlen fresh
  | .get_buf_ptr k klen fresh =>
    match array_get_buf_ptr a k klen fresh with
    | .ok (_, a', evs) => .ok (a', evs)
    | .error f => .error f

/-- The container after a sequence of string insertions, first to last, and the
entries allocated and freed on the way. -/
def run_string_ops : array → List string_op → Except Fault (array × List Event)
  | a, [] => .ok (a, [])
  | a, op :: ops =>
    match op.run a with
    | .ok (a1, evs1) =>
      match run_string_ops a1 ops with
      | .ok (a2, evs2) => .ok (a2, evs1 ++ evs2)
      | .error f => .error f
    | .error f => .error f

/-- The call that took `a` to `a'` obtained its entry from the cached slot at
index `used`: the entry `ds` put in at `p` is the allocation that slot `used`
of `a` held, the capacity is the same and the slots after index `used` are
untouched. -/
def reused_cached (a a' : array) : Prop :=
  ∃ c, a.data[a.used]? = some (some c) ∧ c.type = data_type_t.TYPE_STRING ∧
    ∃ p, p ≤ a.used ∧ ∃ ds, a'.data[p]? = some (some ds) ∧ ds.addr = c.addr ∧
      ds.type = data_type_t.TYPE_STRING ∧ inserted_at a a' p ds ∧ a'.size = a.size ∧
      ∀ i, a.used < i → a'.data[i]? = a.data[i]?

/-- A container of capacity 4 with three logical string entries, the value of
the second one larger than a reuse ceiling of 4096. -/
def sample_strings : array :=
  { data := [some (sample_entry 1 [98] data_type_t.TYPE_STRING),
             some { sample_entry 2 [90] data_type_t.TYPE_STRING with
                    value := payload.string { ptr := [120, 0], used := 2, size := 8192 } },
             some (sample_entry 3 [97, 97] data_type_t.TYPE_STRING), none]
    used := 3 }

/-- Three string insertions: a value, then the keys "k" and "a". -/
def sample_string_ops : List string_op :=
  [string_op.insert_value [118] 1 (sample_entry 7 [] data_type_t.TYPE_STRING),
   string_op.get_buf_ptr [107] 1 (sample_entry 8 [] data_type_t.TYPE_STRING),
   string_op.get_buf_ptr [97] 1 (sample_entry 9 [] data_type_t.TYPE_STRING)]

/-- A container in the middle of a refill of `n` cached string entries: the
slots `[0, n)` hold string entries, `used` of them logical, each logical one
with a key whose `used` field is a 32-bit value. -/
def refilling (n : Nat) (a : array) : Prop :=
  a.used ≤ n ∧ n ≤ a.size ∧ n ≤ 2147483647 ∧
  (∀ i, i < n → ∃ e, a.data[i]? = some (some e) ∧ e.type = data_type_t.TYPE_STRING) ∧
  (∀ i, i < a.used → ∃ e, a.data[i]? = some (some e) ∧ e.key.used < 4294967296)

/-! ## A container at the limit of `INT32_MAX` entries -/

/-- The number of slots of the block `d` that hold the entry at address `x`. -/
def held (x : Nat) (d : List (Option data_unset)) : Nat :=
  (d.filterMap (fun s => s.map data_unset.addr)).count x

/-- After a call that left the container `a'` and the events `evs`: the
occupied slots of `[0, size)` hold pairwise distinct entries, none of which the
call has freed, and the call followed by `array_free_data` frees each of the
entries `owned` exactly once and no other entry. -/
def frees_once (owned : List Nat) (a' : array) (evs : List Event) : Prop :=
  (owned_addrs a').Nodup ∧ (∀ x ∈ owned_addrs a', freed_count x evs = 0) ∧
  ∀ x, freed_count x (evs ++ array_free_data a') = if x ∈ owned then 1 else 0

/-- The entries that the container still owns after a call that handed the
entry `r`, if any, to the caller. -/
def owned_without (a : array) (r : Option data_unset) : List Nat :=
  match r with
  | some e => (owned_addrs a).erase e.addr
  | none => owned_addrs a

/-- The sample container after its used count went back to 2: the slot at
index 2 caches the entry at address 3. -/
def sample_cached : array := { sample_array with used := 2 }

/-! ## A list container of fresh entries -/

/-- An entry as `data_string_init` hands it out (the function is not among the
sources; array.c relies on it only for a zeroed `data_string`): the key and
the value are buffers without a block, `ptr` NULL, `used` 0, `size` 0. -/
def fresh_string (addr : Nat) : data_unset :=
  { addr := addr
    key := { ptr := [], used := 0, size := 0 }
    type := data_type_t.TYPE_STRING
    value := payload.string { ptr := [], used := 0, size := 0 } }

/-- The container of `array_init` after `array_insert_value(a, "v", 1)`, the
entry coming from `data_string_init`. -/
def value_list : Except Fault (array × List Event) :=
  array_insert_value array_init [118] 1 (fresh_string 30)

/-! ## Replacing with an entry that the container caches -/

theorem load_byte_lt (p : List Byte) (i : Nat) : load_byte p i < 256 := by
  unfold load_byte
  exact (p.getD i 0).isLt

theorem lor_32_upper (c : Nat) (h1 : 65 ≤ c) (h2 : c ≤ 90) : c ||| 32 = c + 32 := by
  interval_cases c <;> rfl

theorem ascii_fold_lt (c : Nat) (h : c < 256) : ascii_fold c < 256 := by
  unfold ascii_fold
  split <;> omega

theorem folded_lt (p : List Byte) (i : Nat) : folded p i < 256 :=
  ascii_fold_lt _ (load_byte_lt p i)

theorem to_int_sub (x y : Nat) (hx : x < 256) (hy : y < 256) :
    to_int ((x + 4294967296 - y) % 4294967296) = (x : Int) - (y : Int) := by
  unfold to_int
  split <;> omega

/-- One iteration of the comparison loop, in terms of the folded bytes. -/
theorem caseless_from_succ (a b : List Byte) (n i : Nat) :
    array_caseless_compare_from a b (n + 1) i =
      if folded a i = folded b i then array_caseless_compare_from a b n (i + 1)
      else (folded a i : Int) - (folded b i : Int) := by
  have ha := load_byte_lt a i
  have hb := load_byte_lt b i
  simp only [array_caseless_compare_from, folded, ascii_fold]
  by_cases h : load_byte a i = load_byte b i
  · simp [h]
  · by_cases hA : 65 ≤ load_byte a i ∧ load_byte a i ≤ 90 <;>
    by_cases hB : 65 ≤ load_byte b i ∧ load_byte b i ≤ 90
    · simp only [if_neg h, if_pos hA, if_pos hB, lor_32_upper _ hA.1 hA.2,
        lor_32_upper _ hB.1 hB.2]
      rw [to_int_sub _ _ (by omega) (by omega)]
    · simp only [if_neg h, if_pos hA, if_neg hB, lor_32_upper _ hA.1 hA.2]
      rw [to_int_sub _ _ (by omega) (by omega)]
    · simp only [if_neg h, if_neg hA, if_pos hB, lor_32_upper _ hB.1 hB.2]
      rw [to_int_sub _ _ (by omega) (by omega)]
    · simp only [if_neg h, if_neg hA, if_neg hB]
      rw [to_int_sub _ _ (by omega) (by omega)]
theorem caseless_from_first_diff (a b : List Byte) :
    ∀ (n i d : Nat), d < n → (∀ j, j < d → folded a (i + j) = folded b (i + j)) →
      folded a (i + d) ≠ folded b (i + d) →
      array_caseless_compare_from a b n i = (folded a (i + d) : Int) - (folded b (i + d) : Int) := by
  intro n
  induction n with
  | zero => intro i d hd; omega
  | succ n ih =>
    intro i d hd heq hne
    rw [caseless_from_succ]
    cases d with
    | zero =>
      have hne2 : folded a i ≠ folded b i := by simpa using hne
      rw [if_neg hne2]
      simp
    | succ d =>
      have h0 : folded a i = folded b i := by simpa using heq 0 (by omega)
      rw [if_pos h0]
      have := ih (i + 1) d (by omega)
        (fun j hj => by have := heq (j + 1) (by omega); rwa [show i + 1 + j = i + (j + 1) by omega])
        (by rwa [show i + 1 + d = i + (d + 1) by omega])
      rwa [show i + 1 + d = i + (d + 1) by omega] at this

theorem caseless_from_eq_zero_iff (a b : List Byte) :
    ∀ (n i : Nat), array_caseless_compare_from a b n i = 0 ↔
      ∀ j, j < n → folded a (i + j) = folded b (i + j) := by
  intro n
  induction n with
  | zero => intro i; simp [array_caseless_compare_from]
  | succ n ih =>
    intro i
    rw [caseless_from_succ]
    by_cases h0 : folded a i = folded b i
    · rw [if_pos h0, ih (i + 1)]
      constructor
      · intro h j hj
        cases j with
        | zero => simpa using h0
        | succ j =>
          have := h j (by omega)
          rwa [show i + 1 + j = i + (j + 1) by omega] at this
      · intro h j hj
        have := h (j + 1) (by omega)
        rwa [show i + 1 + j = i + (j + 1) by omega]
    · rw [if_neg h0]
      constructor
      · intro h
        exfalso
        apply h0
        omega
      · intro h
        exact absurd (by simpa using h 0 (by omega)) h0

theorem fold_value_lt (p : List Byte) : ∀ (n i : Nat), fold_value p n i < 256 ^ n := by
  intro n
  induction n with
  | zero => intro i; simp [fold_value]
  | succ n ih =>
    intro i
    have h1 := folded_lt p i
    have h2 := ih (i + 1)
    simp only [fold_value]
    have h3 : folded p i * 256 ^ n ≤ 255 * 256 ^ n := Nat.mul_le_mul_right _ (by omega)
    have h4 : (256 : Nat) ^ (n + 1) = 256 * 256 ^ n := by ring
    omega

theorem caseless_from_rank (a b : List Byte) :
    ∀ (n i : Nat),
      (array_caseless_compare_from a b n i < 0 ↔ fold_value a n i < fold_value b n i) ∧
      (array_caseless_compare_from a b n i = 0 ↔ fold_value a n i = fold_value b n i) ∧
      (0 < array_caseless_compare_from a b n i ↔ fold_value b n i < fold_value a n i) := by
  intro n
  induction n with
  | zero => intro i; simp [array_caseless_compare_from, fold_value]
  | succ n ih =>
    intro i
    rw [caseless_from_succ]
    simp only [fold_value]
    have ha := fold_value_lt a n (i + 1)
    have hb := fold_value_lt b n (i + 1)
    by_cases h0 : folded a i = folded b i
    · rw [if_pos h0, h0]
      obtain ⟨h1, h2, h3⟩ := ih (i + 1)
      refine ⟨by rw [h1]; omega, by rw [h2]; omega, by rw [h3]; omega⟩
    · rw [if_neg h0]
      rcases Nat.lt_or_gt_of_ne h0 with hlt | hgt
      · have h5 : (folded a i + 1) * 256 ^ n ≤ folded b i * 256 ^ n :=
          Nat.mul_le_mul_right _ (by omega)
        have h6 : (folded a i + 1) * 256 ^ n = folded a i * 256 ^ n + 256 ^ n := by ring
        refine ⟨?_, ?_, ?_⟩ <;> constructor <;> intro h <;> omega
      · have h5 : (folded b i + 1) * 256 ^ n ≤ folded a i * 256 ^ n :=
          Nat.mul_le_mul_right _ (by omega)
        have h6 : (folded b i + 1) * 256 ^ n = folded b i * 256 ^ n + 256 ^ n := by ring
        refine ⟨?_, ?_, ?_⟩ <;> constructor <;> intro h <;> omega

theorem key_rank_lt_of_len_lt (a b : List Byte) (alen blen : Nat) (h : alen < blen) :
    key_rank a alen < key_rank b blen := by
  unfold key_rank
  have h1 := fold_value_lt a alen 0
  have h2 : (256 : Nat) ^ (alen + 1) ≤ 256 ^ blen := Nat.pow_le_pow_right (by omega) (by omega)
  have h3 : (256 : Nat) ^ (alen + 1) = 256 * 256 ^ alen := by ring
  omega

/-- The sign of `array_keycmp` is the order of the ranks. -/
theorem array_keycmp_rank (a : List Byte) (alen : Nat) (b : List Byte) (blen : Nat) :
    (array_keycmp a alen b blen < 0 ↔ key_rank a alen < key_rank b blen) ∧
    (array_keycmp a alen b blen = 0 ↔ key_rank a alen = key_rank b blen) ∧
    (0 < array_keycmp a alen b blen ↔ key_rank b blen < key_rank a alen) := by
  by_cases h1 : alen < blen
  · have := key_rank_lt_of_len_lt a b alen blen h1
    simp only [array_keycmp, if_pos h1]
    refine ⟨?_, ?_, ?_⟩ <;> constructor <;> intro h <;> omega
  · by_cases h2 : alen > blen
    · have := key_rank_lt_of_len_lt b a blen alen h2
      simp only [array_keycmp, if_neg h1, if_pos h2]
      refine ⟨?_, ?_, ?_⟩ <;> constructor <;> intro h <;> omega
    · have h3 : alen = blen := by omega
      subst h3
      simp only [array_keycmp, if_neg h1, if_neg h2, array_caseless_compare, key_rank]
      obtain ⟨r1, r2, r3⟩ := caseless_from_rank a b alen 0
      refine ⟨by rw [r1]; omega, by rw [r2]; omega, by rw [r3]; omega⟩

theorem entry_keycmp_rank (k : List Byte) (klen : Nat) (e : data_unset) :
    (entry_keycmp k klen e < 0 ↔ key_rank k klen < entry_rank e) ∧
    (entry_keycmp k klen e = 0 ↔ key_rank k klen = entry_rank e) ∧
    (0 < entry_keycmp k klen e ↔ entry_rank e < key_rank k klen) :=
  array_keycmp_rank _ _ _ _
/-! ## Lemmas on slot accesses -/

theorem load_entry_of_get {d : List (Option data_unset)} {i : Nat} {e : data_unset}
    (h : d[i]? = some (some e)) : load_entry d i = .ok e := by
  simp [load_entry, h]

theorem load_slot_of_get {d : List (Option data_unset)} {i : Nat} {s : Option data_unset}
    (h : d[i]? = some s) : load_slot d i = .ok s := by
  simp [load_slot, h]

theorem to_int_small (n : Nat) (h : n ≤ 2147483647) : to_int n = (n : Int) := by
  unfold to_int
  rw [if_pos (by omega)]

/-! ## The binary search -/

/-- The loop of `array_get_index` on a well-formed container, whatever the
order of its keys: it ends within the fuel, either on an index whose key
compares equal, or on an insertion point whose left neighbour (if visited)
compares below the probe and whose right neighbour compares above. -/
theorem array_get_index_loop_cases (a : array) (k : List Byte) (klen : Nat)
    (hok : array_ok a) :
    ∀ (fuel lower upper : Nat), lower ≤ upper → upper ≤ a.used → upper - lower ≤ fuel →
      (∃ i e, lower ≤ i ∧ i < upper ∧ a.data[i]? = some (some e) ∧
          entry_keycmp k klen e = 0 ∧
          array_get_index_loop a k klen fuel lower upper = .ok (i : Int)) ∨
      (∃ p, lower ≤ p ∧ p ≤ upper ∧
          array_get_index_loop a k klen fuel lower upper = .ok (-(p : Int) - 1) ∧
          (p = lower ∨ ∃ e, a.data[p - 1]? = some (some e) ∧ 0 < entry_keycmp k klen e) ∧
          (p = upper ∨ ∃ e, a.data[p]? = some (some e) ∧ entry_keycmp k klen e < 0)) := by
  obtain ⟨hsz, hmax, hslots⟩ := hok
  intro fuel
  induction fuel with
  | zero =>
    intro lower upper h1 h2 h3
    have : lower = upper := by omega
    subst this
    right
    refine ⟨lower, le_refl _, le_refl _, ?_, Or.inl rfl, Or.inl rfl⟩
    simp [array_get_index_loop, to_int_small lower (by omega)]
  | succ fuel ih =>
    intro lower upper h1 h2 h3
    by_cases hne : lower = upper
    · subst hne
      right
      refine ⟨lower, le_refl _, le_refl _, ?_, Or.inl rfl, Or.inl rfl⟩
      simp [array_get_index_loop, to_int_small lower (by omega)]
    · have hmod : (lower + upper) % 4294967296 = lower + upper := Nat.mod_eq_of_lt (by omega)
      have hp1 : lower ≤ (lower + upper) / 2 := by omega
      have hp2 : (lower + upper) / 2 < upper := by omega
      obtain ⟨e, he, _⟩ := hslots ((lower + upper) / 2) (by omega)
      have hstep : array_get_index_loop a k klen (fuel + 1) lower upper =
          if entry_keycmp k klen e < 0 then
            array_get_index_loop a k klen fuel lower ((lower + upper) / 2)
          else if entry_keycmp k klen e > 0 then
            array_get_index_loop a k klen fuel ((lower + upper) / 2 + 1) upper
          else .ok (((lower + upper) / 2 : Nat) : Int) := by
        have hmod2 : ((lower + upper) / 2 + 1) % 4294967296 = (lower + upper) / 2 + 1 :=
          Nat.mod_eq_of_lt (by omega)
        simp only [array_get_index_loop, hmod, load_entry_of_get he, hmod2,
          to_int_small ((lower + upper) / 2) (by omega)]
        simp [hne]
      rw [hstep]
      by_cases hlt : entry_keycmp k klen e < 0
      · rw [if_pos hlt]
        rcases ih lower ((lower + upper) / 2) hp1 (by omega) (by omega) with
          ⟨i, e', hi1, hi2, hi3, hi4, hi5⟩ | ⟨p, hp3, hp4, hp5, hp6, hp7⟩
        · left
          exact ⟨i, e', hi1, by omega, hi3, hi4, hi5⟩
        · right
          refine ⟨p, hp3, by omega, hp5, hp6, ?_⟩
          rcases hp7 with hp7 | hp7
          · right
            subst hp7
            exact ⟨e, he, hlt⟩
          · exact Or.inr hp7
      · rw [if_neg hlt]
        by_cases hgt : entry_keycmp k klen e > 0
        · rw [if_pos hgt]
          rcases ih ((lower + upper) / 2 + 1) upper (by omega) h2 (by omega) with
            ⟨i, e', hi1, hi2, hi3, hi4, hi5⟩ | ⟨p, hp3, hp4, hp5, hp6, hp7⟩
          · left
            exact ⟨i, e', by omega, hi2, hi3, hi4, hi5⟩
          · right
            refine ⟨p, by omega, hp4, hp5, ?_, hp7⟩
            rcases hp6 with hp6 | hp6
            · right
              subst hp6
              exact ⟨e, by simpa using he, hgt⟩
            · exact Or.inr hp6
        · rw [if_neg hgt]
          left
          exact ⟨(lower + upper) / 2, e, hp1, hp2, he, by omega, rfl⟩

/-- The result of `array_get_index` on a well-formed container. -/
theorem array_get_index_cases (a : array) (k : List Byte) (klen : Nat) (hok : array_ok a) :
    (∃ i e, i < a.used ∧ a.data[i]? = some (some e) ∧ entry_keycmp k klen e = 0 ∧
        array_get_index a k klen = .ok (i : Int)) ∨
    (∃ p, p ≤ a.used ∧ array_get_index a k klen = .ok (-(p : Int) - 1) ∧
        (p = 0 ∨ ∃ e, a.data[p - 1]? = some (some e) ∧ 0 < entry_keycmp k klen e) ∧
        (p = a.used ∨ ∃ e, a.data[p]? = some (some e) ∧ entry_keycmp k klen e < 0)) := by
  rcases array_get_index_loop_cases a k klen hok a.used 0 a.used (by omega) (le_refl _)
      (by omega) with ⟨i, e, _, h2, h3, h4, h5⟩ | ⟨p, _, h2, h3, h4, h5⟩
  · exact Or.inl ⟨i, e, h2, h3, h4, h5⟩
  · exact Or.inr ⟨p, h2, h3, h4, h5⟩
/-! ## Sorted containers -/

theorem keyed_string_length (e : data_unset) (h1 : e.key.used ≠ 0)
    (h2 : e.key.used < 4294967296) :
    buffer_string_length e.key = (e.key.used + 4294967295) % 4294967296 := by
  unfold buffer_string_length
  rw [if_pos h1]
  omega

theorem keyed_rank (e : data_unset) (h1 : e.key.used ≠ 0) (h2 : e.key.used < 4294967296) :
    key_rank e.key.ptr (buffer_string_length e.key) = entry_rank e := by
  unfold entry_rank
  rw [keyed_string_length e h1 h2]

theorem sorted_keyed_entry {a : array} (hs : sorted_keyed a) {i : Nat} (hi : i < a.used) :
    ∃ e, a.data[i]? = some (some e) ∧ e.key.used ≠ 0 ∧ e.key.used < 4294967296 := by
  obtain ⟨⟨_, _, h3⟩, h4, _⟩ := hs
  obtain ⟨e, he, hb⟩ := h3 i hi
  obtain ⟨e', he', hk⟩ := h4 i hi
  have : e' = e := by
    rw [he] at he'
    simpa using he'.symm
  subst this
  exact ⟨e', he, hk, hb⟩

/-- In a sorted keyed container the ranks of the keys increase strictly. -/
theorem sorted_keyed_rank {a : array} (hs : sorted_keyed a) {i j : Nat} {x y : data_unset}
    (hij : i < j) (hj : j < a.used) (hx : a.data[i]? = some (some x))
    (hy : a.data[j]? = some (some y)) : entry_rank x < entry_rank y := by
  obtain ⟨x', hx', hk1, hk2⟩ := sorted_keyed_entry hs (show i < a.used by omega)
  obtain ⟨_, _, h5⟩ := hs
  obtain ⟨x'', hx'', y', hy', hlt⟩ := h5 j hj i hij
  have e1 : x' = x := by rw [hx] at hx'; simpa using hx'.symm
  have e2 : x'' = x := by rw [hx] at hx''; simpa using hx''.symm
  have e3 : y' = y := by rw [hy] at hy'; simpa using hy'.symm
  subst e1 e2 e3
  unfold key_lt at hlt
  rw [(entry_keycmp_rank _ _ _).1, keyed_rank _ hk1 hk2] at hlt
  exact hlt

theorem sorted_keyed_rank_le {a : array} (hs : sorted_keyed a) {i j : Nat} {x y : data_unset}
    (hij : i ≤ j) (hj : j < a.used) (hx : a.data[i]? = some (some x))
    (hy : a.data[j]? = some (some y)) : entry_rank x ≤ entry_rank y := by
  rcases Nat.lt_or_eq_of_le hij with h | h
  · exact Nat.le_of_lt (sorted_keyed_rank hs h hj hx hy)
  · subst h
    rw [hx] at hy
    have : x = y := by simpa using hy
    subst this
    exact le_refl _

/-- The result of `array_get_index` on a sorted keyed container, by ranks. -/
theorem array_get_index_sorted (a : array) (k : List Byte) (klen : Nat)
    (hs : sorted_keyed a) :
    (∃ i e, i < a.used ∧ a.data[i]? = some (some e) ∧ key_rank k klen = entry_rank e ∧
        array_get_index a k klen = .ok (i : Int)) ∨
    (∃ p, p ≤ a.used ∧ array_get_index a k klen = .ok (-(p : Int) - 1) ∧
        (∀ i e, i < p → a.data[i]? = some (some e) → entry_rank e < key_rank k klen) ∧
        (∀ i e, p ≤ i → i < a.used → a.data[i]? = some (some e) →
          key_rank k klen < entry_rank e)) := by
  rcases array_get_index_cases a k klen hs.1 with ⟨i, e, h1, h2, h3, h4⟩ | ⟨p, h1, h2, h3, h4⟩
  · left
    exact ⟨i, e, h1, h2, (entry_keycmp_rank _ _ _).2.1.1 h3, h4⟩
  · right
    refine ⟨p, h1, h2, ?_, ?_⟩
    · intro i e hi he
      rcases h3 with h3 | ⟨e', he', hc⟩
      · omega
      · have hr := (entry_keycmp_rank _ _ _).2.2.1 hc
        have := sorted_keyed_rank_le hs (show i ≤ p - 1 by omega) (by omega) he he'
        omega
    · intro i e hi1 hi2 he
      rcases h4 with h4 | ⟨e', he', hc⟩
      · omega
      · have hr := (entry_keycmp_rank _ _ _).1.1 hc
        have := sorted_keyed_rank_le hs hi1 hi2 he' he
        omega
/-! ## Closed forms of the mutating operations -/

theorem memmove_shift_right (D : List (Option data_unset)) (pos ndx : Nat) (h1 : pos ≤ ndx)
    (h2 : ndx < D.length) (i : Nat) :
    (D.take (pos + 1) ++ (D.drop pos).take (ndx - pos) ++ D.drop (pos + 1 + (ndx - pos)))[i]? =
      if i ≤ pos then D[i]? else if i ≤ ndx then D[i - 1]? else D[i]? := by
  simp only [List.getElem?_append, List.length_append, List.length_take, List.length_drop,
    List.getElem?_take, List.getElem?_drop]
  have e1 : min (pos + 1) D.length = pos + 1 := by omega
  have e2 : min (ndx - pos) (D.length - pos) = ndx - pos := by omega
  rw [e1, e2]
  by_cases c1 : i ≤ pos
  · have : i < pos + 1 + (ndx - pos) := by omega
    have c1' : i < pos + 1 := by omega
    simp [c1, c1', this]
  · by_cases c2 : i ≤ ndx
    · have : i < pos + 1 + (ndx - pos) := by omega
      have c1' : ¬ i < pos + 1 := by omega
      have c3 : i - (pos + 1) < ndx - pos := by omega
      simp only [this, c1', c1, c2, c3, if_true, if_false]
      congr 1
      omega
    · have : ¬ i < pos + 1 + (ndx - pos) := by omega
      simp only [this, c1, c2, if_false]
      congr 1
      omega

/-- The function `array_insert_data_at_pos` on a container with room below
`INT32_MAX` and a position within the logical part: it returns, and the slots
afterwards are those of the (grown) block with `entry` put in at `pos`. -/
theorem array_insert_data_at_pos_ok (a : array) (entry : data_unset) (pos : Nat)
    (h1 : a.used ≤ a.size) (h2 : a.used < 2147483647) (h3 : pos ≤ a.used) :
    ∃ a', array_insert_data_at_pos a entry pos = .ok (a', cached_free a) ∧
      a'.used = a.used + 1 ∧ a'.size = (grown a).length ∧ a.used < (grown a).length ∧
      ∀ i, a'.data[i]? =
        if i < pos then (grown a)[i]?
        else if i = pos then some (some entry)
        else if i ≤ a.used then (grown a)[i - 1]?
        else (grown a)[i]? := by
  have hassert : (a.used + 1) % 4294967296 ≤ 2147483647 := by omega
  have hused : (a.used + 1) % 4294967296 = a.used + 1 := by omega
  have hext : (if a.size = a.used then array_extend a else a) =
      { data := grown a, used := a.used } := by
    unfold grown
    by_cases hfull : a.size = a.used
    · have hl : a.data.length = a.used := hfull
      have e16 : (a.used + 16) % 4294967296 - a.used = 16 := by omega
      rw [if_pos hfull, if_pos hfull]
      simp only [array_extend, array.size, hl, e16]
      rw [← hl, List.take_length]
    · rw [if_neg hfull, if_neg hfull]
  have hlen : a.used < (grown a).length := by
    unfold grown
    have hl : a.used ≤ a.data.length := h1
    split
    · simp; omega
    · rename_i hne
      have : a.data.length ≠ a.used := hne
      omega
  have hcf0 : ∀ s, (grown a)[a.used]? = some s →
      cached_free a = (match s with | some p => [Event.free p] | none => []) := by
    intro s hs
    unfold cached_free
    rw [hs]
    cases s <;> rfl
  obtain ⟨prev, hprev⟩ : ∃ s, (grown a)[a.used]? = some s :=
    ⟨(grown a)[a.used], List.getElem?_eq_getElem hlen⟩
  have hcf := hcf0 prev hprev
  unfold array_insert_data_at_pos
  rw [if_neg (by omega), hext]
  simp only [load_slot_of_get hprev, bind, Except.bind, hused]
  by_cases hp : pos = a.used
  · subst hp
    simp only [ne_eq, not_true_eq_false, if_false, pure, Except.pure, store_slot, if_pos hlen,
      hcf]
    refine ⟨_, rfl, ?_, ?_, hlen, ?_⟩
    · rfl
    · simp [array.size]
    · intro i
      simp only [List.getElem?_set]
      by_cases c1 : i < a.used
      · have : ¬ a.used = i := by omega
        simp [c1, this]
      · by_cases c2 : i = a.used
        · subst c2
          simp [hlen]
        · have c3 : ¬ i ≤ a.used := by omega
          have : ¬ a.used = i := by omega
          simp [c1, c2, c3, this]
  · have hmm : memmove_slots (grown a) (pos + 1) pos (a.used - pos) =
        .ok ((grown a).take (pos + 1) ++ ((grown a).drop pos).take (a.used - pos) ++
          (grown a).drop (pos + 1 + (a.used - pos))) := by
      unfold memmove_slots
      rw [if_pos (by omega)]
    have hlen2 : ((grown a).take (pos + 1) ++ ((grown a).drop pos).take (a.used - pos) ++
          (grown a).drop (pos + 1 + (a.used - pos))).length = (grown a).length := by
      simp only [List.length_append, List.length_take, List.length_drop]
      omega
    simp only [ne_eq, hp, not_false_eq_true, if_true, if_pos h3, hmm, store_slot, hlen2,
      if_pos (show pos < (grown a).length by omega), pure, Except.pure, hcf]
    refine ⟨_, rfl, ?_, ?_, hlen, ?_⟩
    · rfl
    · simp only [array.size, List.length_set, hlen2]
    · intro i
      rw [List.getElem?_set, hlen2, memmove_shift_right _ _ _ h3 hlen]
      by_cases c1 : i < pos
      · have : ¬ pos = i := by omega
        have c1' : i ≤ pos := by omega
        simp [c1, this, c1']
      · by_cases c2 : i = pos
        · subst c2
          have : i < (grown a).length := by omega
          simp [this]
        · have : ¬ pos = i := by omega
          have c1' : ¬ i ≤ pos := by omega
          simp [c1, c2, this, c1']

theorem grown_get_lt (a : array) (i : Nat) (h : i < a.size) : (grown a)[i]? = a.data[i]? := by
  unfold grown
  split
  · exact List.getElem?_append_left h
  · rfl

theorem cached_free_of_lt (a : array) (h : a.used < a.size) :
    cached_free a = (match a.data[a.used]? with
      | some (some p) => [Event.free p]
      | _ => []) := by
  unfold cached_free
  rw [grown_get_lt a _ h]

theorem cached_free_of_full (a : array) (h : a.size = a.used) : cached_free a = [] := by
  unfold cached_free grown
  rw [if_pos h]
  have hl : a.data.length = a.used := h
  rw [List.getElem?_append_right (by omega), hl]
  simp
theorem array_insert_data_at_pos_full (a : array) (entry : data_unset) (pos : Nat)
    (h : a.used = 2147483647) :
    array_insert_data_at_pos a entry pos = .error .assertion := by
  unfold array_insert_data_at_pos
  rw [if_pos (by omega)]

/-- A container whose logical entries are keyed and whose ranks increase
strictly is a sorted keyed container. -/
theorem sorted_keyed_of_rank (a : array) (h1 : a.used ≤ a.size) (h2 : a.used ≤ 2147483647)
    (h3 : ∀ i, i < a.used →
      ∃ e, a.data[i]? = some (some e) ∧ e.key.used ≠ 0 ∧ e.key.used < 4294967296)
    (h4 : ∀ i j x y, i < j → j < a.used → a.data[i]? = some (some x) →
      a.data[j]? = some (some y) → entry_rank x < entry_rank y) : sorted_keyed a := by
  refine ⟨⟨h1, h2, ?_⟩, ?_, ?_⟩
  · intro i hi
    obtain ⟨e, he, _, hb⟩ := h3 i hi
    exact ⟨e, he, hb⟩
  · intro i hi
    obtain ⟨e, he, hk, _⟩ := h3 i hi
    exact ⟨e, he, hk⟩
  · intro j hj i hij
    obtain ⟨x, hx, hk1, hk2⟩ := h3 i (by omega)
    obtain ⟨y, hy, _, _⟩ := h3 j hj
    refine ⟨x, hx, y, hy, ?_⟩
    unfold key_lt
    rw [(entry_keycmp_rank _ _ _).1, keyed_rank _ hk1 hk2]
    exact h4 i j x y hij hj hx hy

/-- Lookup of a key that a sorted keyed container holds at index `i`. -/
theorem array_get_index_found {a : array} (hs : sorted_keyed a) {i : Nat} {e : data_unset}
    (k : List Byte) (klen : Nat) (hi : i < a.used) (he : a.data[i]? = some (some e))
    (hr : key_rank k klen = entry_rank e) : array_get_index a k klen = .ok (i : Int) := by
  rcases array_get_index_sorted a k klen hs with ⟨j, e', h1, h2, h3, h4⟩ | ⟨p, h1, h2, h3, h4⟩
  · rcases Nat.lt_trichotomy i j with c | c | c
    · have := sorted_keyed_rank hs c h1 he h2
      omega
    · subst c
      exact h4
    · have := sorted_keyed_rank hs c hi h2 he
      omega
  · by_cases c : i < p
    · have := h3 i e c he
      omega
    · have := h4 i e (by omega) hi he
      omega

/-- Lookup of a key that a sorted keyed container does not hold. -/
theorem array_get_index_absent {a : array} (hs : sorted_keyed a) (k : List Byte) (klen : Nat)
    (hno : ∀ i e, i < a.used → a.data[i]? = some (some e) → key_rank k klen ≠ entry_rank e) :
    ∃ p, p ≤ a.used ∧ array_get_index a k klen = .ok (-(p : Int) - 1) ∧
      (∀ i e, i < p → a.data[i]? = some (some e) → entry_rank e < key_rank k klen) ∧
      (∀ i e, p ≤ i → i < a.used → a.data[i]? = some (some e) →
        key_rank k klen < entry_rank e) := by
  rcases array_get_index_sorted a k klen hs with ⟨j, e', h1, h2, h3, _⟩ | h
  · exact absurd h3 (hno j e' h1 h2)
  · exact h

theorem to_uint32_insertion_point (p : Nat) (h : p ≤ 2147483647) :
    to_uint32 (-(-(p : Int) - 1) - 1) = p := by
  unfold to_uint32
  omega
/-- The function `array_get_unused_element`: the logical part and the capacity
are left alone; a cached entry of the kind asked for is taken out of its slot. -/
theorem array_get_unused_element_cases (a : array) (t : data_type_t) :
    (∃ e, a.used < a.size ∧ a.data[a.used]? = some (some e) ∧ e.type = t ∧
        array_get_unused_element a t =
          (some e, { a with data := a.data.set a.used none })) ∨
    ((∀ e, a.used < a.size → a.data[a.used]? = some (some e) → e.type ≠ t) ∧
        array_get_unused_element a t = (none, a)) := by
  unfold array_get_unused_element
  by_cases h : a.used < a.size
  · have hl : a.used < a.data.length := h
    rw [if_pos h]
    have hget : a.data[a.used]? = some (a.data.getD a.used none) := by
      rw [List.getD_eq_getElem?_getD, List.getElem?_eq_getElem hl]
      rfl
    cases hd : a.data.getD a.used none with
    | none =>
      right
      rw [hd] at hget
      refine ⟨?_, rfl⟩
      intro e _ he
      rw [hget] at he
      cases he
    | some e =>
      rw [hd] at hget
      by_cases ht : e.type = t
      · left
        exact ⟨e, h, hget, ht, by simp [ht]⟩
      · right
        refine ⟨?_, by simp [ht]⟩
        intro e' _ he'
        rw [hget] at he'
        have : e = e' := by simpa using he'
        subst this
        exact ht
  · right
    rw [if_neg h]
    exact ⟨fun e h' => absurd h' h, rfl⟩

theorem memmove_shift_left (D : List (Option data_unset)) (pos last : Nat) (h1 : pos ≤ last)
    (h2 : last < D.length) (i : Nat) :
    (D.take pos ++ (D.drop (pos + 1)).take (last - pos) ++ D.drop (pos + (last - pos)))[i]? =
      if i < pos then D[i]? else if i < last then D[i + 1]? else D[i]? := by
  simp only [List.getElem?_append, List.length_append, List.length_take, List.length_drop,
    List.getElem?_take, List.getElem?_drop]
  have e1 : min pos D.length = pos := by omega
  have e2 : min (last - pos) (D.length - (pos + 1)) = last - pos := by omega
  rw [e1, e2]
  by_cases c1 : i < pos
  · have : i < pos + (last - pos) := by omega
    simp [c1, this]
  · by_cases c2 : i < last
    · have : i < pos + (last - pos) := by omega
      have c3 : i - pos < last - pos := by omega
      simp only [this, c1, c2, c3, if_true, if_false]
      congr 1
      omega
    · have : ¬ i < pos + (last - pos) := by omega
      simp only [this, c1, c2, if_false]
      congr 1
      omega

/-- The removal step of `array_extract_element_klen` once the key is found at
index `i`: the slots afterwards, one by one. -/
theorem array_extract_element_klen_found (a : array) (k : List Byte) (klen : Nat)
    (i : Nat) (s : Option data_unset) (h1 : a.used ≤ a.size) (h2 : a.used ≤ 2147483647)
    (hi : i < a.used) (hs : a.data[i]? = some s)
    (hidx : array_get_index a k klen = .ok (i : Int)) :
    ∃ a', array_extract_element_klen a k klen = .ok (s, a') ∧
      a'.used = a.used - 1 ∧ a'.size = a.size ∧
      ∀ j, a'.data[j]? =
        if j < i then a.data[j]?
        else if j < a.used - 1 then a.data[j + 1]?
        else if j = a.used - 1 then some none
        else a.data[j]? := by
  have hl : a.used ≤ a.data.length := h1
  have hlast : (a.used + 4294967295) % 4294967296 = a.used - 1 := by omega
  have hu32 : to_uint32 (i : Int) = i := by
    unfold to_uint32
    omega
  have hnn : ¬ ((i : Int) < 0) := by omega
  unfold array_extract_element_klen
  simp only [hidx, if_neg hnn, Int.toNat_ofNat, load_slot_of_get hs, bind, Except.bind, hlast,
    hu32]
  by_cases hp : a.used - 1 = i
  · simp only [hp, ne_eq, not_true_eq_false, if_false, pure, Except.pure, store_slot,
      if_pos (show i < a.data.length by omega)]
    refine ⟨_, rfl, ?_, ?_, ?_⟩
    · rfl
    · simp [array.size]
    · intro j
      simp only [List.getElem?_set]
      by_cases c1 : j < i
      · have : ¬ i = j := by omega
        simp [c1, this]
      · by_cases c2 : j = i
        · subst c2
          have : j < a.data.length := by omega
          simp [this]
        · have : ¬ i = j := by omega
          have c3 : ¬ j < i := c1
          simp [c2, this, c3]
  · have hcnt : (a.used - 1 + 4294967296 - i) % 4294967296 = a.used - 1 - i := by omega
    have hmm : memmove_slots a.data i (i + 1) (a.used - 1 - i) =
        .ok (a.data.take i ++ (a.data.drop (i + 1)).take (a.used - 1 - i) ++
          a.data.drop (i + (a.used - 1 - i))) := by
      unfold memmove_slots
      rw [if_pos (by omega)]
    have hlen2 : (a.data.take i ++ (a.data.drop (i + 1)).take (a.used - 1 - i) ++
          a.data.drop (i + (a.used - 1 - i))).length = a.data.length := by
      simp only [List.length_append, List.length_take, List.length_drop]
      omega
    simp only [ne_eq, hp, not_false_eq_true, if_true, hcnt, hmm, store_slot, hlen2,
      if_pos (show a.used - 1 < a.data.length by omega), pure, Except.pure]
    refine ⟨_, rfl, ?_, ?_, ?_⟩
    · rfl
    · simp only [array.size, List.length_set, hlen2]
    · intro j
      rw [List.getElem?_set, hlen2, memmove_shift_left _ _ _ (by omega) (by omega)]
      by_cases c1 : j < i
      · have : ¬ a.used - 1 = j := by omega
        simp [c1, this]
      · by_cases c2 : j < a.used - 1
        · have : ¬ a.used - 1 = j := by omega
          simp [c1, c2, this]
        · by_cases c3 : j = a.used - 1
          · subst c3
            have : a.used - 1 < a.data.length := by omega
            simp [c1, this]
          · have : ¬ a.used - 1 = j := by omega
            simp [c1, c2, c3, this]

theorem array_extract_element_klen_removed (a : array) (k : List Byte) (klen : Nat)
    (i : Nat) (s : Option data_unset) (h1 : a.used ≤ a.size) (h2 : a.used ≤ 2147483647)
    (hi : i < a.used) (hs : a.data[i]? = some s)
    (hidx : array_get_index a k klen = .ok (i : Int)) :
    ∃ a', array_extract_element_klen a k klen = .ok (s, a') ∧ removed_at a a' i := by
  obtain ⟨a', h3, h4, h5, h6⟩ := array_extract_element_klen_found a k klen i s h1 h2 hi hs hidx
  refine ⟨a', h3, by omega, h5, ?_, ?_⟩
  · intro j hj
    rw [h6 j, if_pos hj]
  · intro j hj1 hj2
    rw [h6 j, if_neg (by omega), if_pos (by omega)]

theorem array_extract_element_klen_absent (a : array) (k : List Byte) (klen : Nat) (p : Nat)
    (hidx : array_get_index a k klen = .ok (-(p : Int) - 1)) :
    array_extract_element_klen a k klen = .ok (none, a) := by
  unfold array_extract_element_klen
  rw [hidx]
  simp only []
  rw [if_pos (by omega)]

/-- Taking one entry out of a sorted keyed container leaves it sorted. -/
theorem sorted_keyed_removed {a a' : array} {p : Nat} (hs : sorted_keyed a)
    (hrem : removed_at a a' p) : sorted_keyed a' := by
  obtain ⟨hu, hsz, hlo, hhi⟩ := hrem
  obtain ⟨h1, h2, _⟩ := hs.1
  apply sorted_keyed_of_rank a' (by omega) (by omega)
  · intro i hi
    by_cases c : i < p
    · rw [hlo i c]
      exact sorted_keyed_entry hs (by omega)
    · rw [hhi i (by omega) hi]
      exact sorted_keyed_entry hs (by omega)
  · intro i j x y hij hj hx hy
    by_cases ci : i < p <;> by_cases cj : j < p
    · rw [hlo i ci] at hx
      rw [hlo j cj] at hy
      exact sorted_keyed_rank hs hij (by omega) hx hy
    · rw [hlo i ci] at hx
      rw [hhi j (by omega) hj] at hy
      exact sorted_keyed_rank hs (show i < j + 1 by omega) (by omega) hx hy
    · omega
    · rw [hhi i (by omega) (by omega)] at hx
      rw [hhi j (by omega) hj] at hy
      exact sorted_keyed_rank hs (show i + 1 < j + 1 by omega) (by omega) hx hy
/-- Lookup of a key held at index `i` returns the entry of that slot. -/
theorem array_get_element_klen_found {a : array} (hs : sorted_keyed a) {i : Nat}
    {e : data_unset} (k : List Byte) (klen : Nat) (hi : i < a.used)
    (he : a.data[i]? = some (some e)) (hr : key_rank k klen = entry_rank e) :
    array_get_element_klen a k klen = .ok (some e) := by
  unfold array_get_element_klen
  rw [array_get_index_found hs k klen hi he hr]
  simp [load_slot_of_get he]

/-- Lookup of a key that is not held returns NULL. -/
theorem array_get_element_klen_absent {a : array} (hs : sorted_keyed a) (k : List Byte)
    (klen : Nat)
    (hno : ∀ i e, i < a.used → a.data[i]? = some (some e) → key_rank k klen ≠ entry_rank e) :
    array_get_element_klen a k klen = .ok none := by
  obtain ⟨p, _, h2, _, _⟩ := array_get_index_absent hs k klen hno
  unfold array_get_element_klen
  rw [h2]
  simp only []
  rw [if_neg (by omega)]

/-- A lookup that returns an entry found it at an index of the logical part. -/
theorem array_get_element_klen_inv {a : array} (hs : sorted_keyed a) {k : List Byte}
    {klen : Nat} {e : data_unset} (h : array_get_element_klen a k klen = .ok (some e)) :
    ∃ i, i < a.used ∧ a.data[i]? = some (some e) ∧ key_rank k klen = entry_rank e := by
  rcases array_get_index_sorted a k klen hs with ⟨i, o, h1, h2, h3, h4⟩ | ⟨p, _, h2, _, _⟩
  · have := array_get_element_klen_found hs k klen h1 h2 h3
    rw [this] at h
    have : o = e := by simpa using h
    subst this
    exact ⟨i, h1, h2, h3⟩
  · unfold array_get_element_klen at h
    rw [h2] at h
    simp only [] at h
    rw [if_neg (by omega)] at h
    cases h
/-- In a sorted keyed container two logical entries of equal rank sit at the
same index. -/
theorem sorted_keyed_index_unique {a : array} (hs : sorted_keyed a) {i j : Nat}
    {x y : data_unset} (hi : i < a.used) (hj : j < a.used)
    (hx : a.data[i]? = some (some x)) (hy : a.data[j]? = some (some y))
    (hr : entry_rank x = entry_rank y) : i = j := by
  rcases Nat.lt_trichotomy i j with c | c | c
  · have := sorted_keyed_rank hs c hj hx hy
    omega
  · exact c
  · have := sorted_keyed_rank hs c hi hy hx
    omega

/-- Removal of a key held at index `i`: the call returns the entry of that slot
and a sorted container without it. -/
theorem array_extract_element_klen_result {a : array} (hs : sorted_keyed a) (k : List Byte)
    (klen : Nat) {i : Nat} {e : data_unset} (hi : i < a.used)
    (he : a.data[i]? = some (some e)) (hr : key_rank k klen = entry_rank e) :
    ∃ a', array_extract_element_klen a k klen = .ok (some e, a') ∧ removed_at a a' i ∧
      sorted_keyed a' := by
  obtain ⟨hsz, hmax, _⟩ := hs.1
  obtain ⟨a', h1, h2⟩ := array_extract_element_klen_removed a k klen i (some e) hsz hmax hi he
    (array_get_index_found hs k klen hi he hr)
  exact ⟨a', h1, h2, sorted_keyed_removed hs h2⟩
theorem owned_addrs_mem {a : array} {i : Nat} {o : data_unset}
    (h : a.data[i]? = some (some o)) : o.addr ∈ owned_addrs a := by
  unfold owned_addrs
  rw [List.mem_filterMap]
  exact ⟨some o, List.mem_iff_getElem?.2 ⟨i, h⟩, rfl⟩

theorem freed_count_append (addr : Nat) (xs ys : List Event) :
    freed_count addr (xs ++ ys) = freed_count addr xs + freed_count addr ys := by
  induction xs with
  | nil => simp [freed_count]
  | cons x xs ih =>
    cases x <;> simp [freed_count, ih]
    omega
theorem caseless_from_congr_left (a a' b : List Byte) :
    ∀ (n i : Nat), (∀ j, i ≤ j → j < i + n → folded a j = folded a' j) →
      array_caseless_compare_from a b n i = array_caseless_compare_from a' b n i := by
  intro n
  induction n with
  | zero => intro i _; rfl
  | succ n ih =>
    intro i h
    rw [caseless_from_succ, caseless_from_succ, h i (le_refl _) (by omega),
      ih (i + 1) (fun j h1 h2 => h j (by omega) (by omega))]

/-- Probes of equal length whose folded bytes agree compare alike against
every key. -/
theorem array_keycmp_congr_left (k1 k2 : List Byte) (klen : Nat) (b : List Byte) (blen : Nat)
    (h : ∀ i, i < klen → folded k1 i = folded k2 i) :
    array_keycmp k1 klen b blen = array_keycmp k2 klen b blen := by
  unfold array_keycmp
  by_cases h1 : klen < blen
  · rw [if_pos h1, if_pos h1]
  · by_cases h2 : klen > blen
    · rw [if_neg h1, if_neg h1, if_pos h2, if_pos h2]
    · rw [if_neg h1, if_neg h1, if_neg h2, if_neg h2]
      unfold array_caseless_compare
      exact caseless_from_congr_left k1 k2 b blen 0 (fun j _ hj => h j (by omega))

theorem array_get_index_loop_congr (a : array) (k1 k2 : List Byte) (klen : Nat)
    (h : ∀ i, i < klen → folded k1 i = folded k2 i) :
    ∀ (fuel lower upper : Nat),
      array_get_index_loop a k1 klen fuel lower upper =
        array_get_index_loop a k2 klen fuel lower upper := by
  intro fuel
  induction fuel with
  | zero => intro lower upper; rfl
  | succ fuel ih =>
    intro lower upper
    simp only [array_get_index_loop, entry_keycmp]
    split
    · cases load_entry a.data ((lower + upper) % 4294967296 / 2) with
      | error f => rfl
      | ok e =>
        simp only [array_keycmp_congr_left k1 k2 klen _ _ h, ih]
    · rfl
/-! ## Appends among keyed operations -/

theorem array_find_or_insert_present (a : array) (entry : data_unset) (i : Nat)
    (hne : entry.key.used ≠ 0)
    (hidx : array_get_index a entry.key.ptr (buffer_string_length entry.key) = .ok (i : Int)) :
    array_find_or_insert a entry = .ok (some i, a, []) := by
  have hemp : buffer_is_empty entry.key = false := by
    simp [buffer_is_empty, hne]
  unfold array_find_or_insert
  simp [hemp, hidx]

theorem array_copy_array_loop_ok (fns : data_methods) (src : array)
    (hslots : ∀ i, i < src.used → ∃ e, src.data[i]? = some (some e)) :
    ∀ (n i : Nat) (d : List (Option data_unset)), i + n ≤ src.used → src.used ≤ d.length →
      ∃ d', array_copy_array_loop fns src n i d = .ok d' ∧ d'.length = d.length ∧
        (∀ j, j < i ∨ i + n ≤ j → d'[j]? = d[j]?) ∧
        (∀ j, i ≤ j → j < i + n →
          ∃ e, src.data[j]? = some (some e) ∧ d'[j]? = some (some (fns.copy e))) := by
  intro n
  induction n with
  | zero =>
    intro i d _ _
    exact ⟨d, rfl, rfl, fun _ _ => rfl, fun j h1 h2 => absurd h2 (by omega)⟩
  | succ n ih =>
    intro i d h1 h2
    obtain ⟨e, he⟩ := hslots i (by omega)
    obtain ⟨d', h3, h4, h5, h6⟩ := ih (i + 1) (d.set i (some (fns.copy e))) (by omega)
      (by simpa using h2)
    refine ⟨d', ?_, by simpa using h4, ?_, ?_⟩
    · simp only [array_copy_array_loop, load_entry_of_get he, bind, Except.bind, store_slot,
        if_pos (show i < d.length by omega)]
      exact h3
    · intro j hj
      rw [h5 j (by omega), List.getElem?_set, if_neg (by omega)]
    · intro j hj1 hj2
      by_cases c : j = i
      · subst c
        refine ⟨e, he, ?_⟩
        rw [h5 j (by omega), List.getElem?_set, if_pos rfl, if_pos (by omega)]
      · exact h6 j (by omega) (by omega)

/-- The function `array_copy_array` on a source with a block (`size` not 0)
whose logical slots hold entries: `dst` gets the length and the capacity of the
source, slot `i < used` holds the copy of the entry of slot `i` of the source,
the other slots are empty, and every entry that `dst` held is freed. -/
theorem array_copy_array_nonempty (fns : data_methods) (dst src : array)
    (hsize : src.size ≠ 0) (hused : src.used ≤ src.size)
    (hslots : ∀ i, i < src.used → ∃ e, src.data[i]? = some (some e)) :
    ∃ d, array_copy_array fns dst src =
        .ok ({ data := d, used := src.used }, array_free_data dst) ∧
      d.length = src.size ∧
      (∀ i, i < src.used →
        ∃ e, src.data[i]? = some (some e) ∧ d[i]? = some (some (fns.copy e))) ∧
      (∀ i, src.used ≤ i → i < src.size → d[i]? = some none) := by
  obtain ⟨d, h1, h2, h3, h4⟩ := array_copy_array_loop_ok fns src hslots src.used 0
    (List.replicate src.size none) (by omega) (by simpa using hused)
  refine ⟨d, ?_, by simpa using h2, fun i hi => h4 i (Nat.zero_le _) (by omega), ?_⟩
  · unfold array_copy_array
    simp only [if_neg hsize, h1, bind, Except.bind]
    rfl
  · intro i hi1 hi2
    rw [h3 i (Or.inr (by omega)), List.getElem?_replicate, if_pos hi2]

/-- The function `array_copy_array` on a source without a block (`size` 0):
the entries of `dst` are freed and the call returns with the fields of `dst`
as they were. -/
theorem array_copy_array_size_zero (fns : data_methods) (dst src : array)
    (hsize : src.size = 0) :
    array_copy_array fns dst src = .ok (dst, array_free_data dst) := by
  unfold array_copy_array
  simp only [if_pos hsize]
/-! ## The order induced by the comparator -/

/-- The sign of `array_keycmp`, by the ranks of the two keys. -/
theorem array_keycmp_sign (a : List Byte) (alen : Nat) (b : List Byte) (blen : Nat) :
    Int.sign (array_keycmp a alen b blen) =
      if key_rank a alen < key_rank b blen then -1
      else if key_rank a alen = key_rank b blen then 0 else 1 := by
  obtain ⟨h1, h2, h3⟩ := array_keycmp_rank a alen b blen
  by_cases c1 : key_rank a alen < key_rank b blen
  · rw [if_pos c1]
    exact Int.sign_eq_neg_one_of_neg (h1.2 c1)
  · rw [if_neg c1]
    by_cases c2 : key_rank a alen = key_rank b blen
    · rw [if_pos c2, h2.2 c2]
      rfl
    · rw [if_neg c2]
      exact Int.sign_eq_one_of_pos (h3.2 (by omega))
theorem grown_length (a : array) :
    (grown a).length = if a.size = a.used then a.size + 16 else a.size := by
  unfold grown
  split <;> simp [array.size]

theorem grown_get_new (a : array) (i : Nat) (h1 : a.size = a.used) (h2 : a.size ≤ i)
    (h3 : i < a.size + 16) : (grown a)[i]? = some none := by
  unfold grown
  have hl : a.data.length ≤ i := h2
  have hl' : i - a.data.length < 16 := by
    have : a.size = a.data.length := rfl
    omega
  rw [if_pos h1, List.getElem?_append_right hl, List.getElem?_replicate, if_pos hl']

theorem cached_free_eq (a : array) (h : a.used ≤ a.size) :
    cached_free a = (match a.data[a.used]? with
      | some (some p) => [Event.free p]
      | _ => []) := by
  rcases Nat.lt_or_eq_of_le h with c | c
  · exact cached_free_of_lt a c
  · rw [cached_free_of_full a c.symm]
    have hl : a.data.length ≤ a.used := by
      have : a.size = a.data.length := rfl
      omega
    rw [List.getElem?_eq_none hl]
/-! ## The matching queries -/

theorem memcmp_from_eq_zero_iff (p q : List Byte) :
    ∀ (n i j : Nat), memcmp_from p q n i j = 0 ↔
      ∀ t, t < n → load_byte p (i + t) = load_byte q (j + t) := by
  intro n
  induction n with
  | zero => intro i j; simp [memcmp_from]
  | succ n ih =>
    intro i j
    simp only [memcmp_from]
    by_cases h0 : load_byte p i = load_byte q j
    · rw [if_pos h0, ih (i + 1) (j + 1)]
      constructor
      · intro h t ht
        cases t with
        | zero => simpa using h0
        | succ t =>
          have := h t (by omega)
          rwa [show i + 1 + t = i + (t + 1) by omega,
            show j + 1 + t = j + (t + 1) by omega] at this
      · intro h t ht
        have := h (t + 1) (by omega)
        rwa [show i + 1 + t = i + (t + 1) by omega, show j + 1 + t = j + (t + 1) by omega]
    · rw [if_neg h0]
      constructor
      · intro h
        exfalso
        apply h0
        omega
      · intro h
        exact absurd (by simpa using h 0 (by omega)) h0

theorem memcmp_eq_zero_iff (p : List Byte) (off : Nat) (q : List Byte) (n : Nat) :
    0 = memcmp p off q n ↔ ∀ t, t < n → load_byte q t = load_byte p (off + t) := by
  unfold memcmp
  rw [eq_comm, memcmp_from_eq_zero_iff]
  constructor
  · intro h t ht
    have := h t ht
    rw [Nat.zero_add] at this
    exact this.symm
  · intro h t ht
    rw [Nat.zero_add]
    exact (h t ht).symm

/-- The scan on a container whose logical slots hold entries: it returns the
first entry satisfying `P`, or NULL when none does. -/
theorem scan_slots_spec (a : array) (P : data_unset → Prop) [DecidablePred P]
    (hslots : ∀ i, i < a.used → ∃ e, a.data[i]? = some (some e)) :
    ∀ (n i : Nat), i + n ≤ a.used →
      (∃ j e, i ≤ j ∧ j < i + n ∧ a.data[j]? = some (some e) ∧ P e ∧
          (∀ j' e', i ≤ j' → j' < j → a.data[j']? = some (some e') → ¬ P e') ∧
          scan_slots a P n i = .ok (some e)) ∨
      ((∀ j e, i ≤ j → j < i + n → a.data[j]? = some (some e) → ¬ P e) ∧
          scan_slots a P n i = .ok none) := by
  intro n
  induction n with
  | zero =>
    intro i _
    right
    exact ⟨fun j e h1 h2 => absurd h2 (by omega), rfl⟩
  | succ n ih =>
    intro i hi
    obtain ⟨e, he⟩ := hslots i (by omega)
    by_cases hP : P e
    · left
      refine ⟨i, e, le_refl _, by omega, he, hP, fun j' e' h1 h2 => absurd h2 (by omega), ?_⟩
      simp [scan_slots, load_entry_of_get he, hP]
    · have hstep : scan_slots a P (n + 1) i = scan_slots a P n (i + 1) := by
        simp [scan_slots, load_entry_of_get he, hP]
      rw [hstep]
      rcases ih (i + 1) (by omega) with ⟨j, e', h1, h2, h3, h4, h5, h6⟩ | ⟨h1, h2⟩
      · left
        refine ⟨j, e', by omega, by omega, h3, h4, ?_, h6⟩
        intro j' e'' hj1 hj2 hj3
        by_cases c : j' = i
        · subst c
          rw [he] at hj3
          have : e = e'' := by simpa using hj3
          subst this
          exact hP
        · exact h5 j' e'' (by omega) hj2 hj3
      · right
        refine ⟨?_, h2⟩
        intro j e' hj1 hj2 hj3
        by_cases c : j = i
        · subst c
          rw [he] at hj3
          have : e = e' := by simpa using hj3
          subst this
          exact hP
        · exact h1 j e' (by omega) (by omega) hj3

theorem scan_slots_all (a : array) (P : data_unset → Prop) [DecidablePred P]
    (hslots : ∀ i, i < a.used → ∃ e, a.data[i]? = some (some e)) :
    (∃ j e, j < a.used ∧ a.data[j]? = some (some e) ∧ P e ∧
        (∀ j' e', j' < j → a.data[j']? = some (some e') → ¬ P e') ∧
        scan_slots a P a.used 0 = .ok (some e)) ∨
    ((∀ j e, j < a.used → a.data[j]? = some (some e) → ¬ P e) ∧
        scan_slots a P a.used 0 = .ok none) := by
  rcases scan_slots_spec a P hslots a.used 0 (by omega) with
    ⟨j, e, _, h2, h3, h4, h5, h6⟩ | ⟨h1, h2⟩
  · left
    exact ⟨j, e, by omega, h3, h4, fun j' e' hj => h5 j' e' (Nat.zero_le _) hj, h6⟩
  · right
    exact ⟨fun j e hj => h1 j e (Nat.zero_le _) (by omega), h2⟩

theorem array_match_key_prefix_klen_loop_scan (a : array) (s : List Byte) (slen : Nat) :
    ∀ (n i : Nat), array_match_key_prefix_klen_loop a s slen n i =
      scan_slots a (key_starts s slen) n i := by
  intro n
  induction n with
  | zero => intro i; rfl
  | succ n ih =>
    intro i
    simp only [array_match_key_prefix_klen_loop, scan_slots, ih]
    cases load_entry a.data i with
    | error f => rfl
    | ok e =>
      simp only [key_starts, memcmp_eq_zero_iff, Nat.zero_add]

theorem array_match_key_suffix_loop_scan (a : array) (b : buffer) (blen : Nat) :
    ∀ (n i : Nat), array_match_key_suffix_loop a b blen n i =
      scan_slots a (key_ends b.ptr blen) n i := by
  intro n
  induction n with
  | zero => intro i; rfl
  | succ n ih =>
    intro i
    simp only [array_match_key_suffix_loop, scan_slots, ih]
    cases load_entry a.data i with
    | error f => rfl
    | ok e =>
      simp only [key_ends, memcmp_eq_zero_iff]

theorem load_entry_ok {d : List (Option data_unset)} {i : Nat} {e : data_unset}
    (h : load_entry d i = .ok e) : d[i]? = some (some e) := by
  unfold load_entry at h
  split at h
  · rename_i e' he
    rw [he]
    cases h
    rfl
  · cases h

/-- The loop of `array_match_path_or_ext` on a container in which every
logical entry whose key is no longer than the probe has a key with a block is
the scan for the first entry satisfying its rule. -/
theorem array_match_path_or_ext_loop_scan (a : array) (b : buffer) (blen : Nat)
    (hkeys : ∀ j e, j < a.used → a.data[j]? = some (some e) →
      buffer_string_length e.key ≤ blen → e.key.ptr ≠ []) :
    ∀ (n i : Nat), i + n ≤ a.used → array_match_path_or_ext_loop a b blen n i =
      scan_slots a (path_or_ext_rule b.ptr blen) n i := by
  intro n
  induction n with
  | zero => intro i _; rfl
  | succ n ih =>
    intro i hi
    simp only [array_match_path_or_ext_loop, scan_slots, ih (i + 1) (by omega)]
    cases hl : load_entry a.data i with
    | error f => rfl
    | ok e =>
      have hk := hkeys i e (by omega) (load_entry_ok hl)
      simp only [path_or_ext_rule, key_starts, key_ends, memcmp_eq_zero_iff]
      by_cases c0 : buffer_string_length e.key ≤ blen
      · have hne := hk c0
        by_cases c : load_byte e.key.ptr 0 = 47
        · simp only [if_pos c0, if_neg hne, if_pos c, Nat.zero_add, c0, true_and, if_true]
        · simp only [if_pos c0, if_neg hne, if_neg c, c0, true_and, if_true]
      · by_cases c : load_byte e.key.ptr 0 = 47
        · simp only [if_neg c0, if_pos c, c0, false_and, if_false]
        · simp only [if_neg c0, if_neg c, c0, false_and, if_false]
theorem reset_strings_addr (M : Nat) (ds : data_unset) : (reset_strings M ds).addr = ds.addr := by
  unfold reset_strings
  simp only []
  split <;> split <;> rfl

theorem reset_strings_type (M : Nat) (ds : data_unset) : (reset_strings M ds).type = ds.type := by
  unfold reset_strings
  simp only []
  split <;> split <;> rfl

/-- The loop of `array_reset_data_strings` over occupied slots returns, and
rewrites exactly the slots it visits. -/
theorem array_reset_data_strings_loop_spec (M : Nat) (n : Nat) :
    ∀ (i : Nat) (d : List (Option data_unset)),
      (∀ j, i ≤ j → j < i + n → ∃ e, d[j]? = some (some e)) →
      ∃ d', array_reset_data_strings_loop M n i d = .ok d' ∧ d'.length = d.length ∧
        ∀ j, d'[j]? = if i ≤ j ∧ j < i + n then (d[j]?).map (Option.map (reset_strings M))
          else d[j]? := by
  induction n with
  | zero =>
    intro i d _
    refine ⟨d, rfl, rfl, ?_⟩
    intro j
    rw [if_neg (by omega)]
  | succ n ih =>
    intro i d h
    obtain ⟨e, he⟩ := h i (Nat.le_refl i) (by omega)
    have hi : i < d.length := by
      by_contra hc
      rw [List.getElem?_eq_none (by omega)] at he
      cases he
    have hset : ∀ j, i + 1 ≤ j → j < i + 1 + n →
        ∃ e', (d.set i (some (reset_strings M e)))[j]? = some (some e') := by
      intro j hj1 hj2
      obtain ⟨e', he'⟩ := h j (by omega) (by omega)
      exact ⟨e', by rw [List.getElem?_set_ne (by omega)]; exact he'⟩
    obtain ⟨d', hd1, hd2, hd3⟩ := ih (i + 1) (d.set i (some (reset_strings M e))) hset
    refine ⟨d', ?_, ?_, ?_⟩
    · unfold array_reset_data_strings_loop
      simp only [load_entry_of_get he, store_slot, if_pos hi, bind, Except.bind]
      exact hd1
    · rw [hd2, List.length_set]
    · intro j
      rw [hd3 j]
      by_cases c1 : i + 1 ≤ j ∧ j < i + 1 + n
      · rw [if_pos c1, if_pos (by omega), List.getElem?_set_ne (by omega)]
      · rw [if_neg c1]
        by_cases c2 : j = i
        · subst c2
          rw [if_pos (by omega), List.getElem?_set_self hi, he]
          rfl
        · rw [if_neg (by omega), List.getElem?_set_ne (by omega)]

/-- The function `array_reset_data_strings` on a container whose logical slots
hold entries: it returns, `used` is 0, and every slot is kept, the logical ones
with their buffers reset. -/
theorem array_reset_data_strings_spec (M : Nat) (a : array)
    (h : ∀ i, i < a.used → ∃ e, a.data[i]? = some (some e)) :
    ∃ a0, array_reset_data_strings M a = .ok a0 ∧ a0.used = 0 ∧ a0.size = a.size ∧
      ∀ j, a0.data[j]? = if j < a.used then (a.data[j]?).map (Option.map (reset_strings M))
        else a.data[j]? := by
  obtain ⟨d', hd1, hd2, hd3⟩ := array_reset_data_strings_loop_spec M a.used 0 a.data
    (fun j _ hj => h j (by omega))
  refine ⟨{ data := d', used := 0 }, ?_, rfl, hd2, ?_⟩
  · unfold array_reset_data_strings
    simp only [hd1, bind, Except.bind, pure, Except.pure]
  · intro j
    have := hd3 j
    simp only [Nat.zero_le, true_and, Nat.zero_add] at this
    exact this

/-- The function `array_insert_string_at_pos` when slot `used` caches a string
entry: that entry is the one put in, nothing is allocated or freed, and the
capacity is the same. -/
theorem array_insert_string_at_pos_reuse (a : array) (pos : Nat) (fresh c : data_unset)
    (h1 : a.used < a.size) (h2 : a.used < 2147483647) (h3 : pos ≤ a.used)
    (hc : a.data[a.used]? = some (some c)) (ht : c.type = data_type_t.TYPE_STRING) :
    ∃ a', array_insert_string_at_pos a pos fresh = .ok (c, a', []) ∧
      a'.used = a.used + 1 ∧ a'.size = a.size ∧
      ∀ i, a'.data[i]? =
        if i < pos then a.data[i]?
        else if i = pos then some (some c)
        else if i ≤ a.used then a.data[i - 1]?
        else a.data[i]? := by
  have hl : a.used < a.data.length := h1
  rcases array_get_unused_element_cases a data_type_t.TYPE_STRING with
    ⟨e, _, he, _, hres⟩ | ⟨hno, _⟩
  · rw [hc] at he
    cases he
    have hsz1 : ({ a with data := a.data.set a.used none } : array).size = a.size := by
      simp [array.size]
    have hne : ¬ ({ a with data := a.data.set a.used none } : array).size = a.used := by
      rw [hsz1]; omega
    have hg : grown { a with data := a.data.set a.used none } = a.data.set a.used none := by
      unfold grown
      rw [if_neg hne]
    have hcf : cached_free { a with data := a.data.set a.used none } = [] := by
      unfold cached_free
      rw [hg]
      simp [List.getElem?_set_self hl]
    obtain ⟨a', ha1, ha2, ha3, _, ha5⟩ :=
      array_insert_data_at_pos_ok { a with data := a.data.set a.used none } c pos
        (by rw [hsz1]; exact Nat.le_of_lt h1) h2 h3
    rw [hcf] at ha1
    rw [hg] at ha3 ha5
    refine ⟨a', ?_, ha2, ?_, ?_⟩
    · unfold array_insert_string_at_pos
      rw [hres]
      simp only [ha1, bind, Except.bind, pure, Except.pure]
    · rw [ha3, List.length_set]
      rfl
    · intro i
      rw [ha5 i]
      by_cases c1 : i < pos
      · rw [if_pos c1, if_pos c1, List.getElem?_set_ne (by omega)]
      · rw [if_neg c1, if_neg c1]
        by_cases c2 : i = pos
        · rw [if_pos c2, if_pos c2]
        · rw [if_neg c2, if_neg c2]
          by_cases c3 : i ≤ a.used
          · rw [if_pos c3, if_pos c3]
            show (a.data.set a.used none)[i - 1]? = a.data[i - 1]?
            rw [List.getElem?_set_ne (by omega)]
          · rw [if_neg c3, if_neg c3]
            show (a.data.set a.used none)[i]? = a.data[i]?
            rw [List.getElem?_set_ne (by omega)]
  · exact absurd ht (hno c h1 hc)

/-- During a refill, putting the cached entry of slot `used` in at `p` and
writing its fields keeps the refill going and reuses the cached slot. -/
theorem refill_place {n : Nat} {a a1 : array} {p : Nat} {c : data_unset} (E : data_unset)
    (hI : refilling n a) (hlt : a.used < n) (hp : p ≤ a.used)
    (hc : a.data[a.used]? = some (some c)) (hct : c.type = data_type_t.TYPE_STRING)
    (hu : a1.used = a.used + 1) (hs : a1.size = a.size)
    (hd : ∀ i, a1.data[i]? =
        if i < p then a.data[i]?
        else if i = p then some (some c)
        else if i ≤ a.used then a.data[i - 1]?
        else a.data[i]?)
    (hEt : E.type = data_type_t.TYPE_STRING) (hEa : E.addr = c.addr)
    (hEk : E.key.used < 4294967296) :
    refilling n { a1 with data := a1.data.set p (some E) } ∧
      reused_cached a { a1 with data := a1.data.set p (some E) } := by
  obtain ⟨_, i2, i3, i4, i5⟩ := hI
  have hl1 : a1.data.length = a.data.length := hs
  have hsz : n ≤ a.data.length := i2
  have hpl : p < a1.data.length := by omega
  have hget : ∀ i, (a1.data.set p (some E))[i]? =
      if i < p then a.data[i]?
      else if i = p then some (some E)
      else if i ≤ a.used then a.data[i - 1]?
      else a.data[i]? := by
    intro i
    by_cases c2 : i = p
    · subst c2
      rw [List.getElem?_set_self hpl, if_neg (by omega), if_pos rfl]
    · rw [List.getElem?_set_ne (by omega), hd i, if_neg c2, if_neg c2]
  refine ⟨⟨?_, ?_, i3, ?_, ?_⟩, ?_⟩
  · show a1.used ≤ n
    omega
  · show n ≤ (a1.data.set p (some E)).length
    rw [List.length_set]
    omega
  · intro i hi
    show ∃ e, (a1.data.set p (some E))[i]? = some (some e) ∧ _
    rw [hget i]
    by_cases c1 : i < p
    · rw [if_pos c1]
      exact i4 i hi
    · rw [if_neg c1]
      by_cases c2 : i = p
      · rw [if_pos c2]
        exact ⟨E, rfl, hEt⟩
      · rw [if_neg c2]
        by_cases c3 : i ≤ a.used
        · rw [if_pos c3]
          exact i4 (i - 1) (by omega)
        · rw [if_neg c3]
          exact i4 i hi
  · intro i hi
    have hi' : i < a.used + 1 := by
      have : i < a1.used := hi
      omega
    show ∃ e, (a1.data.set p (some E))[i]? = some (some e) ∧ _
    rw [hget i]
    by_cases c1 : i < p
    · rw [if_pos c1]
      exact i5 i (by omega)
    · rw [if_neg c1]
      by_cases c2 : i = p
      · rw [if_pos c2]
        exact ⟨E, rfl, hEk⟩
      · rw [if_neg c2, if_pos (by omega)]
        exact i5 (i - 1) (by omega)
  · refine ⟨c, hc, hct, p, hp, E, ?_, hEa, hEt, ⟨?_, ?_, ?_, ?_, ?_⟩, ?_, ?_⟩
    · show (a1.data.set p (some E))[p]? = _
      rw [List.getElem?_set_self hpl]
    · exact hu
    · show a1.used ≤ (a1.data.set p (some E)).length
      rw [List.length_set]
      omega
    · intro i hi
      show (a1.data.set p (some E))[i]? = _
      rw [hget i, if_pos hi]
    · show (a1.data.set p (some E))[p]? = _
      rw [List.getElem?_set_self hpl]
    · intro i hi1 hi2
      show (a1.data.set p (some E))[i]? = _
      rw [hget i, if_neg (by omega), if_neg (by omega), if_pos hi2]
    · show (a1.data.set p (some E)).length = a.data.length
      rw [List.length_set]
      exact hl1
    · intro i hi
      show (a1.data.set p (some E))[i]? = _
      rw [hget i, if_neg (by omega), if_neg (by omega), if_neg (by omega)]

/-- One string insertion during a refill: it returns without allocating or
freeing, the refill goes on, and a call that inserts obtains its entry from
the cached slot at index `used`. -/
theorem string_op_step (n : Nat) (a : array) (op : string_op) (hI : refilling n a)
    (hlt : a.used < n) (hf : op.fits) :
    ∃ a', op.run a = .ok (a', []) ∧ refilling n a' ∧ a'.used ≤ a.used + 1 ∧
      a'.size = a.size ∧ (op.absent a → reused_cached a a') := by
  have hI' := hI
  obtain ⟨_, i2, i3, i4, i5⟩ := hI'
  obtain ⟨c, hc, hct⟩ := i4 a.used hlt
  have hsz : a.used < a.size := by omega
  have hmax : a.used < 2147483647 := by omega
  cases op with
  | insert_value v vlen fresh =>
    obtain ⟨a1, h1, h2, h3, h4⟩ :=
      array_insert_string_at_pos_reuse a a.used fresh c hsz hmax (Nat.le_refl _) hc hct
    have hl : a.used < a1.data.length := by
      have : a1.data.length = a.data.length := h3
      have : a.used < a.data.length := hsz
      omega
    obtain ⟨r1, r2⟩ := refill_place
      { c with key := buffer_clear c.key,
               value := payload.string (buffer_copy_string_len (string_value c) v vlen) }
      hI hlt (Nat.le_refl _) hc hct h2 h3 h4 hct rfl (by show 0 < 4294967296; omega)
    refine ⟨_, ?_, r1, ?_, ?_, fun _ => r2⟩
    · unfold string_op.run array_insert_value
      simp only [h1, bind, Except.bind, store_slot, if_pos hl, pure, Except.pure]
    · show a1.used ≤ a.used + 1
      omega
    · show (a1.data.set a.used _).length = a.data.length
      rw [List.length_set]
      exact h3
  | get_buf_ptr k klen fresh =>
    have hok : array_ok a := ⟨by omega, by omega, i5⟩
    rcases array_get_index_cases a k klen hok with ⟨i, e, g1, g2, g3, g4⟩ | ⟨p, g1, g2, _, _⟩
    · refine ⟨a, ?_, hI, by omega, rfl, ?_⟩
      · unfold string_op.run array_get_buf_ptr
        simp [g4]
      · intro hab
        obtain ⟨e', he', hne⟩ := hab i g1
        rw [g2] at he'
        cases he'
        exact absurd g3 hne
    · have hneg : ¬ (-(p : Int) - 1 ≥ 0) := by omega
      obtain ⟨a1, h1, h2, h3, h4⟩ :=
        array_insert_string_at_pos_reuse a p fresh c hsz hmax g1 hc hct
      have hl : p < a1.data.length := by
        have : a1.data.length = a.data.length := h3
        have : a.used < a.data.length := hsz
        omega
      have hfit : klen < 4294967295 := hf
      obtain ⟨r1, r2⟩ := refill_place
        { c with key := buffer_copy_string_len c.key k klen,
                 value := payload.string (buffer_clear (string_value c)) }
        hI hlt g1 hc hct h2 h3 h4 hct rfl (by show klen + 1 < 4294967296; omega)
      refine ⟨_, ?_, r1, ?_, ?_, fun _ => r2⟩
      · unfold string_op.run array_get_buf_ptr
        simp only [g2, if_neg hneg, to_uint32_insertion_point p (by omega), h1, bind,
          Except.bind, store_slot, if_pos hl, pure, Except.pure]
      · show a1.used ≤ a.used + 1
        omega
      · show (a1.data.set p _).length = a.data.length
        rw [List.length_set]
        exact h3

/-- A run of string insertions during a refill with enough cached entries:
every prefix of the run returns without allocating or freeing, and the call
after it, if it inserts, obtains its entry from the cached slot at index
`used`. -/
theorem run_string_ops_refill (n : Nat) :
    ∀ (ops : List string_op) (a : array), refilling n a → a.used + ops.length ≤ n →
      (∀ op ∈ ops, op.fits) → ∀ k, k ≤ ops.length →
      ∃ ak, run_string_ops a (ops.take k) = .ok (ak, []) ∧ refilling n ak ∧
        ak.used ≤ a.used + k ∧ ak.size = a.size ∧
        ∀ op, ops[k]? = some op →
          ∃ ak', op.run ak = .ok (ak', []) ∧ (op.absent ak → reused_cached ak ak') := by
  intro ops
  induction ops with
  | nil =>
    intro a hI _ _ k hk
    have hk0 : k = 0 := by simpa using hk
    subst hk0
    refine ⟨a, rfl, hI, by omega, rfl, ?_⟩
    intro op hop
    simp at hop
  | cons op rest ih =>
    intro a hI hlen hfit k hk
    have hlen' : a.used + (rest.length + 1) ≤ n := by simpa using hlen
    obtain ⟨a1, s1, s2, s3, s4, s5⟩ :=
      string_op_step n a op hI (by omega) (hfit op (List.mem_cons_self _ _))
    cases k with
    | zero =>
      refine ⟨a, rfl, hI, by omega, rfl, ?_⟩
      intro op' hop
      have : op = op' := by simpa using hop
      subst this
      exact ⟨a1, s1, s5⟩
    | succ k =>
      have hk' : k ≤ rest.length := by simpa using hk
      obtain ⟨ak, r1, r2, r3, r4, r5⟩ :=
        ih a1 s2 (by omega) (fun o ho => hfit o (List.mem_cons_of_mem _ ho)) k hk'
      refine ⟨ak, ?_, r2, by omega, by rw [r4, s4], ?_⟩
      · rw [List.take_succ_cons]
        unfold run_string_ops
        rw [s1]
        simp only [r1, List.append_nil]
      · intro op' hop
        exact r5 op' (by simpa using hop)
theorem held_append (x : Nat) (d1 d2 : List (Option data_unset)) :
    held x (d1 ++ d2) = held x d1 + held x d2 := by
  unfold held
  rw [List.filterMap_append, List.count_append]

theorem held_cons (x : Nat) (s : Option data_unset) (d : List (Option data_unset)) :
    held x (s :: d) = held x [s] + held x d :=
  held_append x [s] d

theorem held_none (x : Nat) : held x [none] = 0 := rfl

theorem held_replicate_none (x : Nat) (n : Nat) : held x (List.replicate n none) = 0 := by
  induction n with
  | zero => rfl
  | succ n ih =>
    rw [List.replicate_succ, held_cons, ih, held_none]

theorem held_owned (x : Nat) (a : array) : (owned_addrs a).count x = held x a.data := rfl

theorem freed_count_free (x : Nat) (p : data_unset) :
    freed_count x [Event.free p] = held x [some p] := by
  unfold held
  simp [freed_count, List.count_cons]

theorem freed_count_free_slots (x : Nat) (d : List (Option data_unset)) :
    freed_count x (array_free_slots d) = held x d := by
  induction d with
  | nil => rfl
  | cons s d ih =>
    rw [held_cons, ← ih]
    cases s with
    | none =>
      rw [held_none]
      simp [array_free_slots]
    | some e =>
      have h := freed_count_append x [Event.free e] (array_free_slots d)
      rw [freed_count_free] at h
      exact h

/-- The slot at an index splits the block in three. -/
theorem held_split (x : Nat) (d : List (Option data_unset)) (i : Nat)
    (s : Option data_unset) (h : d[i]? = some s) :
    held x d = held x (d.take i) + held x [s] + held x (d.drop (i + 1)) := by
  have hi : i < d.length := by
    by_contra hc
    rw [List.getElem?_eq_none (by omega)] at h
    cases h
  have hs : d[i] = s := by
    rw [List.getElem?_eq_getElem hi] at h
    exact Option.some.inj h
  have e1 : d = d.take i ++ (s :: d.drop (i + 1)) := by
    rw [← hs, ← List.drop_eq_getElem_cons hi, List.take_append_drop]
  conv_lhs => rw [e1]
  rw [held_append, held_cons]
  omega

/-- A write to one slot exchanges the old slot content for the new one. -/
theorem held_set (x : Nat) (d : List (Option data_unset)) (i : Nat)
    (s v : Option data_unset) (h : d[i]? = some s) :
    held x (d.set i v) + held x [s] = held x d + held x [v] := by
  have hi : i < d.length := by
    by_contra hc
    rw [List.getElem?_eq_none (by omega)] at h
    cases h
  have h1 := held_split x d i s h
  rw [List.set_eq_take_append_cons_drop, if_pos hi, held_append, held_cons]
  omega

/-- The block `d'` is the block `g` with `v` put in at `pos`, the slots
`[pos, u)` moved up by one and the slot `u` overwritten. -/
theorem held_insert_shape (x : Nat) (g d' : List (Option data_unset)) (pos u : Nat)
    (v s : Option data_unset) (hp : pos ≤ u) (hs : g[u]? = some s)
    (hpt : ∀ i, d'[i]? =
      if i < pos then g[i]?
      else if i = pos then some v
      else if i ≤ u then g[i - 1]?
      else g[i]?) :
    held x d' + held x [s] = held x g + held x [v] := by
  have hu : u < g.length := by
    by_contra hc
    rw [List.getElem?_eq_none (by omega)] at hs
    cases hs
  have e1 : d' = g.take pos ++ (v :: ((g.drop pos).take (u - pos) ++ g.drop (u + 1))) := by
    apply List.ext_getElem?
    intro i
    rw [hpt i]
    simp only [List.getElem?_append, List.length_take, List.getElem?_take, List.getElem?_cons,
      List.length_drop, List.getElem?_drop]
    have m1 : min pos g.length = pos := by omega
    have m2 : min (u - pos) (g.length - pos) = u - pos := by omega
    rw [m1, m2]
    by_cases c1 : i < pos
    · simp [c1]
    · by_cases c2 : i = pos
      · subst c2
        simp
      · have c3 : i - pos ≠ 0 := by omega
        by_cases c4 : i ≤ u
        · have c5 : i - pos - 1 < u - pos := by omega
          simp only [c1, c2, c3, c4, c5, if_true, if_false]
          congr 1
          omega
        · have c5 : ¬ i - pos - 1 < u - pos := by omega
          simp only [c1, c2, c3, c4, c5, if_false]
          congr 1
          omega
  have hsu : g[u] = s := by
    rw [List.getElem?_eq_getElem hu] at hs
    exact Option.some.inj hs
  have e2 : g = g.take pos ++ ((g.drop pos).take (u - pos) ++ (s :: g.drop (u + 1))) := by
    have e3 : (g.drop pos).drop (u - pos) = s :: g.drop (u + 1) := by
      rw [List.drop_drop, show pos + (u - pos) = u by omega, ← hsu,
        ← List.drop_eq_getElem_cons hu]
    rw [← e3, List.take_append_drop, List.take_append_drop]
  have h1 : held x d' = held x (g.take pos) + held x [v] +
      held x ((g.drop pos).take (u - pos)) + held x (g.drop (u + 1)) := by
    rw [e1, held_append, held_cons, held_append]
    omega
  have h2 : held x g = held x (g.take pos) + held x ((g.drop pos).take (u - pos)) +
      held x [s] + held x (g.drop (u + 1)) := by
    conv_lhs => rw [e2]
    rw [held_append, held_append, held_cons]
    omega
  omega

/-- The block `d'` is the block `d` without the slot `pos`, the slots
`(pos, last]` moved down by one and the slot `last` emptied. -/
theorem held_remove_shape (x : Nat) (d d' : List (Option data_unset)) (pos last : Nat)
    (s : Option data_unset) (hp : pos ≤ last) (hl : last < d.length) (hs : d[pos]? = some s)
    (hpt : ∀ j, d'[j]? =
      if j < pos then d[j]?
      else if j < last then d[j + 1]?
      else if j = last then some none
      else d[j]?) :
    held x d' + held x [s] = held x d := by
  have hpl : pos < d.length := by omega
  have e1 : d' = d.take pos ++ ((d.drop (pos + 1)).take (last - pos) ++
      (none :: d.drop (last + 1))) := by
    apply List.ext_getElem?
    intro i
    rw [hpt i]
    simp only [List.getElem?_append, List.length_take, List.getElem?_take, List.getElem?_cons,
      List.length_drop, List.getElem?_drop]
    have m1 : min pos d.length = pos := by omega
    have m2 : min (last - pos) (d.length - (pos + 1)) = last - pos := by omega
    rw [m1, m2]
    by_cases c1 : i < pos
    · simp [c1]
    · by_cases c2 : i < last
      · have c3 : i - pos < last - pos := by omega
        simp only [c1, c2, c3, if_true, if_false]
        congr 1
        omega
      · have c3 : ¬ i - pos < last - pos := by omega
        by_cases c4 : i = last
        · subst c4
          simp [c1]
        · have c5 : i - pos - (last - pos) ≠ 0 := by omega
          simp only [c1, c2, c3, c4, c5, if_false]
          congr 1
          omega
  have hsp : d[pos] = s := by
    rw [List.getElem?_eq_getElem hpl] at hs
    exact Option.some.inj hs
  have e2 : d = d.take pos ++ (s :: ((d.drop (pos + 1)).take (last - pos) ++
      d.drop (last + 1))) := by
    have e3 : (d.drop (pos + 1)).drop (last - pos) = d.drop (last + 1) := by
      rw [List.drop_drop, show pos + 1 + (last - pos) = last + 1 by omega]
    rw [← e3, List.take_append_drop, ← hsp, ← List.drop_eq_getElem_cons hpl,
      List.take_append_drop]
  have h1 : held x d' = held x (d.take pos) + held x ((d.drop (pos + 1)).take (last - pos)) +
      held x (d.drop (last + 1)) := by
    rw [e1, held_append, held_append, held_cons, held_none]
    omega
  have h2 : held x d = held x (d.take pos) + held x [s] +
      held x ((d.drop (pos + 1)).take (last - pos)) + held x (d.drop (last + 1)) := by
    conv_lhs => rw [e2]
    rw [held_append, held_cons, held_append]
    omega
  omega

/-- The count of the frees decides `frees_once`: if every address is freed by
the call and held by the container afterwards as often, in total, as it occurs
in the duplicate-free list `owned`, then the call frees once. -/
theorem frees_once_of_count (owned : List Nat) (a' : array) (evs : List Event)
    (hB : owned.Nodup) (hc : ∀ x, freed_count x evs + held x a'.data = owned.count x) :
    frees_once owned a' evs := by
  have hle : ∀ x, owned.count x ≤ 1 := List.nodup_iff_count_le_one.1 hB
  refine ⟨?_, ?_, ?_⟩
  · rw [List.nodup_iff_count_le_one]
    intro x
    have := hc x
    have := hle x
    rw [held_owned]
    omega
  · intro x hx
    have h1 : 1 ≤ (owned_addrs a').count x := List.one_le_count_iff.2 hx
    rw [held_owned] at h1
    have := hc x
    have := hle x
    omega
  · intro x
    rw [freed_count_append]
    have h1 : freed_count x (array_free_data a') = held x a'.data :=
      freed_count_free_slots x a'.data
    rw [h1, hc x]
    by_cases c : x ∈ owned
    · rw [if_pos c, List.count_eq_one_of_mem hB c]
    · rw [if_neg c, List.count_eq_zero.2 c]

theorem held_some (x : Nat) (e : data_unset) :
    held x [some e] = if e.addr = x then 1 else 0 := by
  unfold held
  simp [List.count_cons]

theorem held_grown (x : Nat) (a : array) : held x (grown a) = held x a.data := by
  unfold grown
  split
  · rw [held_append, held_replicate_none]
    rfl
  · rfl

theorem freed_count_cached (x : Nat) (a : array) (s : Option data_unset)
    (hs : (grown a)[a.used]? = some s) : freed_count x (cached_free a) = held x [s] := by
  unfold cached_free
  rw [hs]
  cases s with
  | none => rfl
  | some p => exact freed_count_free x p

/-- The count of the owned entries after an entry was handed to the caller. -/
theorem count_owned_without (x : Nat) (a : array) (e : data_unset) (n : Nat)
    (h : n + held x [some e] = held x a.data) :
    n = ((owned_addrs a).erase e.addr).count x := by
  rw [held_some] at h
  by_cases c : e.addr = x
  · subst c
    rw [if_pos rfl] at h
    rw [List.count_erase_self, held_owned]
    omega
  · rw [if_neg c] at h
    rw [List.count_erase_of_ne (fun hc => c hc.symm), held_owned]
    omega

/-- The function `array_insert_data_at_pos` and the ownership of the entries:
on a container whose occupied slots hold pairwise distinct entries, none of
them the entry put in, the call returns and frees once. -/
theorem array_insert_data_at_pos_once (a : array) (entry : data_unset) (pos : Nat)
    (h1 : a.used ≤ a.size) (h2 : a.used < 2147483647) (h3 : pos ≤ a.used)
    (hnd : (owned_addrs a).Nodup) (hnew : entry.addr ∉ owned_addrs a) :
    ∃ a', array_insert_data_at_pos a entry pos = .ok (a', cached_free a) ∧
      frees_once (entry.addr :: owned_addrs a) a' (cached_free a) := by
  obtain ⟨a', r1, _, _, r4, r5⟩ := array_insert_data_at_pos_ok a entry pos h1 h2 h3
  refine ⟨a', r1, frees_once_of_count _ a' _ (List.nodup_cons.2 ⟨hnew, hnd⟩) ?_⟩
  intro x
  obtain ⟨s, hs⟩ : ∃ s, (grown a)[a.used]? = some s :=
    ⟨(grown a)[a.used], List.getElem?_eq_getElem r4⟩
  have e1 := held_insert_shape x (grown a) a'.data pos a.used (some entry) s h3 hs r5
  have e2 : (entry.addr :: owned_addrs a).count x = held x [some entry] + held x a.data :=
    held_cons x (some entry) a.data
  rw [freed_count_cached x a s hs, e2, ← held_grown x a]
  omega

/-- The function `array_get_unused_element` and the ownership of the entries. -/
theorem array_get_unused_element_once (a : array) (t : data_type_t)
    (hnd : (owned_addrs a).Nodup) :
    frees_once (owned_without a (array_get_unused_element a t).1)
      (array_get_unused_element a t).2 [] := by
  rcases array_get_unused_element_cases a t with ⟨e, _, he, _, hres⟩ | ⟨_, hres⟩
  · rw [hres]
    refine frees_once_of_count _ _ _ (hnd.erase e.addr) ?_
    intro x
    have e1 := held_set x a.data a.used (some e) none he
    rw [held_none] at e1
    have e2 : freed_count x [] = 0 := rfl
    rw [e2, Nat.zero_add]
    exact count_owned_without x a e _ (by
      show held x (a.data.set a.used none) + held x [some e] = held x a.data
      omega)
  · rw [hres]
    refine frees_once_of_count _ _ _ hnd ?_
    intro x
    show 0 + held x a.data = (owned_addrs a).count x
    rw [held_owned]
    omega

/-- The function `array_extract_element_klen` and the ownership of the
entries: on a well-formed container the call returns, frees nothing, and the
entry it returns is no longer held by a slot. -/
theorem array_extract_element_klen_once (a : array) (k : List Byte) (klen : Nat)
    (hok : array_ok a) (hnd : (owned_addrs a).Nodup) :
    ∃ r a', array_extract_element_klen a k klen = .ok (r, a') ∧
      frees_once (owned_without a r) a' [] := by
  have hok' := hok
  obtain ⟨h1, h2, _⟩ := hok'
  rcases array_get_index_cases a k klen hok with ⟨i, e, g1, g2, _, g4⟩ | ⟨p, _, g2, _, _⟩
  · obtain ⟨a', r1, _, _, r4⟩ :=
      array_extract_element_klen_found a k klen i (some e) h1 h2 g1 g2 g4
    refine ⟨some e, a', r1, frees_once_of_count _ _ _ (hnd.erase e.addr) ?_⟩
    intro x
    have hl : a.used - 1 < a.data.length := by
      have : a.used ≤ a.data.length := h1
      omega
    have e1 := held_remove_shape x a.data a'.data i (a.used - 1) (some e) (by omega) hl g2 r4
    have e2 : freed_count x [] = 0 := rfl
    rw [e2, Nat.zero_add]
    exact count_owned_without x a e _ e1
  · refine ⟨none, a, array_extract_element_klen_absent a k klen p g2,
      frees_once_of_count _ _ _ hnd ?_⟩
    intro x
    show 0 + held x a.data = (owned_addrs a).count x
    rw [held_owned]
    omega

/-- The function `array_replace` on a well-formed container: it overwrites the
slot of an entry that `array_get_index` found, or it is the call of
`array_insert_data_at_pos` at an index within the logical part. -/
theorem array_replace_cases (a : array) (entry : data_unset) (hok : array_ok a) :
    (∃ i o, i < a.used ∧ a.data[i]? = some (some o) ∧
        ((o.addr = entry.addr ∧ array_replace a entry = .error .assertion) ∨
         (o.addr ≠ entry.addr ∧ array_replace a entry =
            .ok ({ a with data := a.data.set i (some entry) }, [Event.free o])))) ∨
    (∃ p, p ≤ a.used ∧ array_replace a entry = array_insert_data_at_pos a entry p) := by
  have hok' := hok
  obtain ⟨h1, h2, _⟩ := hok'
  by_cases hemp : entry.key.used = 0
  · right
    refine ⟨a.used, Nat.le_refl _, ?_⟩
    have hb : buffer_is_empty entry.key = true := by simp [buffer_is_empty, hemp]
    unfold array_replace array_find_or_insert
    rw [if_pos hb]
    cases array_insert_data_at_pos a entry a.used with
    | error f => rfl
    | ok r => rfl
  · have hb : ¬ buffer_is_empty entry.key = true := by simp [buffer_is_empty, hemp]
    rcases array_get_index_cases a entry.key.ptr (buffer_string_length entry.key) hok with
      ⟨i, o, g1, g2, _, g4⟩ | ⟨p, g1, g2, _, _⟩
    · left
      have hl : i < a.data.length := by
        have : a.used ≤ a.data.length := h1
        omega
      refine ⟨i, o, g1, g2, ?_⟩
      have hf := array_find_or_insert_present a entry i hemp g4
      by_cases c : o.addr = entry.addr
      · left
        refine ⟨c, ?_⟩
        unfold array_replace
        simp [hf, load_entry_of_get g2, c, bind, Except.bind]
      · right
        refine ⟨c, ?_⟩
        unfold array_replace
        simp [hf, load_entry_of_get g2, c, bind, Except.bind, store_slot, hl, pure, Except.pure]
    · right
      refine ⟨p, g1, ?_⟩
      have hneg : ¬ (-(p : Int) - 1 ≥ 0) := by omega
      unfold array_replace array_find_or_insert
      rw [if_neg hb]
      simp only [g2, if_neg hneg, to_uint32_insertion_point p (by omega)]
      cases array_insert_data_at_pos a entry p with
      | error f => rfl
      | ok r => rfl

/-- The function `array_replace` and the ownership of the entries. -/
theorem array_replace_once (a : array) (entry : data_unset) (hok : array_ok a)
    (hnd : (owned_addrs a).Nodup) (hnew : entry.addr ∉ owned_addrs a) :
    (∃ a' evs, array_replace a entry = .ok (a', evs) ∧
      frees_once (entry.addr :: owned_addrs a) a' evs) ∨
    (a.used = 2147483647 ∧ array_replace a entry = .error .assertion) := by
  have hok' := hok
  obtain ⟨h1, h2, _⟩ := hok'
  rcases array_replace_cases a entry hok with
    ⟨i, o, g1, g2, ⟨c, _⟩ | ⟨_, hres⟩⟩ | ⟨p, hp, hres⟩
  · exact absurd (c ▸ owned_addrs_mem g2) hnew
  · left
    refine ⟨_, _, hres, frees_once_of_count _ _ _ (List.nodup_cons.2 ⟨hnew, hnd⟩) ?_⟩
    intro x
    have e1 := held_set x a.data i (some o) (some entry) g2
    have e2 : (entry.addr :: owned_addrs a).count x = held x [some entry] + held x a.data :=
      held_cons x (some entry) a.data
    rw [freed_count_free, e2]
    show held x [some o] + held x (a.data.set i (some entry)) = _
    omega
  · rcases Nat.lt_or_eq_of_le h2 with c | c
    · left
      obtain ⟨a', r1, r2⟩ := array_insert_data_at_pos_once a entry p h1 c hp hnd hnew
      exact ⟨a', _, by rw [hres, r1], r2⟩
    · right
      exact ⟨c, by rw [hres, array_insert_data_at_pos_full a entry p c]⟩
/-! ## The claims -/

/-- C1: `array_keycmp(a, alen, b, blen)` is length-major and
case-insensitive-minor.  It is negative when `alen < blen` and positive when
`alen > blen`; when the lengths are equal its sign is the sign of
`fold(a[i]) - fold(b[i])` at the first index `i` where the folded bytes differ,
`fold` lowercasing the bytes 'A'..'Z' only; and it is 0 exactly when the lengths
are equal and all folded bytes are equal. -/
theorem array_keycmp_spec (a : List Byte) (alen : Nat) (b : List Byte) (blen : Nat) :
    (alen < blen → array_keycmp a alen b blen < 0) ∧
    (alen > blen → array_keycmp a alen b blen > 0) ∧
    (alen = blen → ∀ i, i < blen → (∀ j, j < i → folded a j = folded b j) →
      folded a i ≠ folded b i →
      Int.sign (array_keycmp a alen b blen) =
        Int.sign ((folded a i : Int) - (folded b i : Int))) ∧
    (array_keycmp a alen b blen = 0 ↔
      alen = blen ∧ ∀ i, i < blen → folded a i = folded b i) := by
  refine ⟨?_, ?_, ?_, ?_⟩
  · intro h
    simp [array_keycmp, h]
  · intro h
    have h2 : ¬ alen < blen := by omega
    simp [array_keycmp, h, h2]
  · intro h i hi heq hne
    have h1 : ¬ alen < blen := by omega
    have h2 : ¬ alen > blen := by omega
    simp only [array_keycmp, if_neg h1, if_neg h2, array_caseless_compare]
    rw [caseless_from_first_diff a b blen 0 i hi (by simpa using heq) (by simpa using hne)]
    simp
  · constructor
    · intro h
      by_cases h1 : alen < blen
      · simp [array_keycmp, h1] at h
      · by_cases h2 : alen > blen
        · simp [array_keycmp, h1, h2] at h
        · simp only [array_keycmp, if_neg h1, if_neg h2, array_caseless_compare] at h
          refine ⟨by omega, ?_⟩
          have := (caseless_from_eq_zero_iff a b blen 0).1 h
          simpa using this
    · rintro ⟨h, heq⟩
      have h1 : ¬ alen < blen := by omega
      have h2 : ¬ alen > blen := by omega
      simp only [array_keycmp, if_neg h1, if_neg h2, array_caseless_compare]
      exact (caseless_from_eq_zero_iff a b blen 0).2 (by simpa using heq)

/-- Witness for C1: "Z" (one byte) sorts before "aa" (two bytes), and "Host"
compares equal to "hOST". -/
theorem array_keycmp_spec_witness :
    array_keycmp [90] 1 [97, 97] 2 < 0 ∧
    array_keycmp [72, 111, 115, 116] 4 [104, 79, 83, 84] 4 = 0 :=
  ⟨(array_keycmp_spec [90] 1 [97, 97] 2).1 (by decide),
   (array_keycmp_spec [72, 111, 115, 116] 4 [104, 79, 83, 84] 4).2.2.2.2
     ⟨rfl, by decide⟩⟩

/-- C2: on a container whose logical entries have non-empty keys in strictly
ascending order, `array_get_index` returns the index `i >= 0` of the entry whose
key compares equal to the probe when there is one; otherwise it returns `-p-1`
where `p` in `[0, used]` is the smallest index whose key sorts after the probe
(every entry below `p` sorts before the probe, every entry from `p` on sorts
after it).  Hence the result is `>= 0` exactly when the key is present, and
"insert at 0" (-1) differs from "found at 0" (0). -/
theorem array_get_index_spec (a : array) (k : List Byte) (klen : Nat)
    (hs : sorted_keyed a) :
    (∀ i e, i < a.used → a.data[i]? = some (some e) → entry_keycmp k klen e = 0 →
      array_get_index a k klen = .ok (i : Int)) ∧
    ((∀ i e, i < a.used → a.data[i]? = some (some e) → entry_keycmp k klen e ≠ 0) →
      ∃ p, p ≤ a.used ∧ array_get_index a k klen = .ok (-(p : Int) - 1) ∧
        (∀ i e, i < p → a.data[i]? = some (some e) → 0 < entry_keycmp k klen e) ∧
        (∀ i e, p ≤ i → i < a.used → a.data[i]? = some (some e) →
          entry_keycmp k klen e < 0)) ∧
    (∃ r, array_get_index a k klen = .ok r ∧
      (0 ≤ r ↔ ∃ i e, i < a.used ∧ a.data[i]? = some (some e) ∧
        entry_keycmp k klen e = 0)) := by
  refine ⟨?_, ?_, ?_⟩
  · intro i e hi he hc
    exact array_get_index_found hs k klen hi he ((entry_keycmp_rank _ _ _).2.1.1 hc)
  · intro hno
    obtain ⟨p, h1, h2, h3, h4⟩ := array_get_index_absent hs k klen
      (fun i e hi he hr => hno i e hi he ((entry_keycmp_rank _ _ _).2.1.2 hr))
    refine ⟨p, h1, h2, ?_, ?_⟩
    · intro i e hi he
      exact (entry_keycmp_rank _ _ _).2.2.2 (h3 i e hi he)
    · intro i e hi1 hi2 he
      exact (entry_keycmp_rank _ _ _).1.2 (h4 i e hi1 hi2 he)
  · rcases array_get_index_sorted a k klen hs with ⟨i, e, h1, h2, h3, h4⟩ | ⟨p, h1, h2, h3, h4⟩
    · refine ⟨(i : Int), h4, ?_⟩
      constructor
      · intro _
        exact ⟨i, e, h1, h2, (entry_keycmp_rank _ _ _).2.1.2 h3⟩
      · intro _
        omega
    · refine ⟨-(p : Int) - 1, h2, ?_⟩
      constructor
      · intro h
        omega
      · rintro ⟨i, e, hi, he, hc⟩
        exfalso
        have hr := (entry_keycmp_rank _ _ _).2.1.1 hc
        by_cases c : i < p
        · have := h3 i e c he
          omega
        · have := h4 i e (by omega) hi he
          omega

/-- Witness for C2: in the sample container the probe "z" is found at index 1
(the key "Z"), and the absent probe "a" has the insertion point 0. -/
theorem array_get_index_spec_witness :
    sorted_keyed sample_array ∧
    array_get_index sample_array [122] 1 = .ok 1 ∧
    (∃ p, p ≤ sample_array.used ∧ array_get_index sample_array [97] 1 = .ok (-(p : Int) - 1)) :=
  ⟨by decide,
   (array_get_index_spec sample_array [122] 1 (by decide)).1 1
     (sample_entry 2 [90] data_type_t.TYPE_STRING) (by decide) (by decide) (by decide),
   (fun ⟨p, h1, h2, _⟩ => ⟨p, h1, h2⟩)
     ((array_get_index_spec sample_array [97] 1 (by decide)).2.1 (by
       intro i e hi he
       have hi3 : i < 3 := hi
       interval_cases i <;> (simp [sample_array] at he; subst he; decide)))⟩

/-- C5: on a sorted keyed container that holds the key `k`,
`array_extract_element_klen(a, k)` returns the entry of that key, after which a
lookup of `k` with `array_get_element_klen` returns NULL, while the lookup of
every other key that was held returns the same entry as before. -/
theorem lookup_after_extract (a : array) (k : List Byte) (klen : Nat) (hs : sorted_keyed a)
    (hpresent : ∃ i e, i < a.used ∧ a.data[i]? = some (some e) ∧ entry_keycmp k klen e = 0) :
    ∃ e a', array_extract_element_klen a k klen = .ok (some e, a') ∧
      array_get_element_klen a k klen = .ok (some e) ∧
      array_get_element_klen a' k klen = .ok none ∧
      ∀ k' klen' e', array_keycmp k' klen' k klen ≠ 0 →
        array_get_element_klen a k' klen' = .ok (some e') →
        array_get_element_klen a' k' klen' = .ok (some e') := by
  obtain ⟨i, e, hi, he, hc⟩ := hpresent
  have hr : key_rank k klen = entry_rank e := (entry_keycmp_rank _ _ _).2.1.1 hc
  obtain ⟨a', h1, h2, hs'⟩ := array_extract_element_klen_result hs k klen hi he hr
  obtain ⟨hu, _, hlo, hhi⟩ := h2
  refine ⟨e, a', h1, array_get_element_klen_found hs k klen hi he hr, ?_, ?_⟩
  · apply array_get_element_klen_absent hs'
    intro j x hj hx hrx
    by_cases c : j < i
    · rw [hlo j c] at hx
      have := sorted_keyed_index_unique hs (show j < a.used by omega) hi hx he (by omega)
      omega
    · rw [hhi j (by omega) hj] at hx
      have := sorted_keyed_index_unique hs (show j + 1 < a.used by omega) hi hx he (by omega)
      omega
  · intro k' klen' e' hne hlook
    obtain ⟨j, hj, hje, hrj⟩ := array_get_element_klen_inv hs hlook
    have hrne : key_rank k' klen' ≠ key_rank k klen :=
      fun h => hne ((array_keycmp_rank _ _ _ _).2.1.2 h)
    have hji : j ≠ i := by
      intro c
      subst c
      rw [he] at hje
      have : e = e' := by simpa using hje
      subst this
      omega
    by_cases c : j < i
    · exact array_get_element_klen_found hs' k' klen' (show j < a'.used by omega)
        (by rw [hlo j c]; exact hje) hrj
    · have hj1 : j - 1 + 1 = j := by omega
      exact array_get_element_klen_found hs' k' klen' (show j - 1 < a'.used by omega)
        (by rw [hhi (j - 1) (by omega) (by omega), hj1]; exact hje) hrj

/-- Witness for C5: removing "Z" from the sample container; afterwards "z" is
not found. -/
theorem lookup_after_extract_witness :
    ∃ e a', array_extract_element_klen sample_array [122] 1 = .ok (some e, a') ∧
      array_get_element_klen sample_array [122] 1 = .ok (some e) ∧
      array_get_element_klen a' [122] 1 = .ok none ∧
      ∀ k' klen' e', array_keycmp k' klen' [122] 1 ≠ 0 →
        array_get_element_klen sample_array k' klen' = .ok (some e') →
        array_get_element_klen a' k' klen' = .ok (some e') :=
  lookup_after_extract sample_array [122] 1 (by decide)
    ⟨1, sample_entry 2 [90] data_type_t.TYPE_STRING, by decide, by decide, by decide⟩

/-- C9 (the code at the failing input): `array_copy_array(dst, src)` with the
sample container as `dst` and a zero-initialised container as `src` frees the
three entries of `dst` and returns with `dst` unchanged, so that `dst.used` is
3, not `src.used = 0`, and slot 0 of `dst` still holds the entry just freed. -/
theorem array_copy_array_stale_dst :
    array_copy_array sample_methods sample_array zero_array =
      .ok (sample_array,
        [Event.free (sample_entry 1 [98] data_type_t.TYPE_STRING),
         Event.free (sample_entry 2 [90] data_type_t.TYPE_STRING),
         Event.free (sample_entry 3 [97, 97] data_type_t.TYPE_STRING)]) ∧
    sample_array.used = 3 ∧ zero_array.used = 0 ∧
    sample_array.data[0]? = some (some (sample_entry 1 [98] data_type_t.TYPE_STRING)) := by
  decide

/-- C10: lookup is case-insensitive.  For every container and every two probe
keys of equal length that differ only in the case of ASCII letters (their
folded bytes agree), `array_get_index` returns the same result for both, and
so does `array_get_element_klen`: all such spellings locate the same stored
entry. -/
theorem lookup_case_insensitive (a : array) (k1 k2 : List Byte) (klen : Nat)
    (h : ∀ i, i < klen → folded k1 i = folded k2 i) :
    array_get_index a k1 klen = array_get_index a k2 klen ∧
    array_get_element_klen a k1 klen = array_get_element_klen a k2 klen := by
  have h1 : array_get_index a k1 klen = array_get_index a k2 klen :=
    array_get_index_loop_congr a k1 k2 klen h a.used 0 a.used
  refine ⟨h1, ?_⟩
  unfold array_get_element_klen
  rw [h1]

/-- Witness for C10: "host" and "HOST" both locate the entry stored under
"Host", at index 0. -/
theorem lookup_case_insensitive_witness :
    array_get_index sample_headers [104, 111, 115, 116] 4 =
      array_get_index sample_headers [72, 79, 83, 84] 4 ∧
    array_get_index sample_headers [72, 79, 83, 84] 4 = .ok 0 ∧
    array_get_element_klen sample_headers [104, 111, 115, 116] 4 =
      .ok (some (sample_entry 1 [72, 111, 115, 116] data_type_t.TYPE_STRING)) :=
  ⟨(lookup_case_insensitive sample_headers [104, 111, 115, 116] [72, 79, 83, 84] 4
      (by decide)).1,
   by decide, by decide⟩

/-- C11, refuted as stated: after inserting the keys "Z", "aa", "b" (in that
order) into the empty container by `array_insert_unique`, the keys of the
logical entries in index order are not "Z", "b", "aa". -/
theorem zab_order_refuted :
    ¬ ((run_inserts sample_methods array_init zab_insert_unique).map logical_keys =
      .ok [some [90], some [98], some [97, 97]]) := by
  decide

/-- C11, amended: after inserting entries with the keys "Z", "aa", "b" (in that
order) into an empty container through a keyed insertion path
(`array_insert_unique`, `array_replace`, `array_get_buf_ptr` or
`array_get_int_ptr`), the logical entries in index order have the keys "b",
"Z", "aa": the one-byte keys come before the two-byte key, and among the
one-byte keys "b" comes before "Z", which is compared as "z". -/
theorem zab_order :
    (run_inserts sample_methods array_init zab_insert_unique).map logical_keys =
      .ok [some [98], some [90], some [97, 97]] ∧
    (run_inserts sample_methods array_init zab_replace).map logical_keys =
      .ok [some [98], some [90], some [97, 97]] ∧
    (run_inserts sample_methods array_init zab_get_buf_ptr).map logical_keys =
      .ok [some [98], some [90], some [97, 97]] ∧
    (run_inserts sample_methods array_init zab_get_int_ptr).map logical_keys =
      .ok [some [98], some [90], some [97, 97]] ∧
    array_keycmp [98] 1 [90] 1 < 0 ∧ array_keycmp [90] 1 [97, 97] 2 < 0 := by
  decide

/-- C12, refuted as stated: with the entries keyed "/images" and ".png"
inserted by `array_insert_unique`, `array_match_path_or_ext` with the probe
"/images/logo.png" does not return the entry keyed "/images". -/
theorem path_or_ext_images_refuted :
    ¬ (rules_inserted.bind (fun a => array_match_path_or_ext a logo_png) =
      .ok (some images_entry)) := by
  decide

/-- C12, amended: given a container into which entries keyed "/images" and
".png" have been inserted through the keyed insertion path (in either order),
the logical entries are ".png", "/images" in index order, and
`array_match_path_or_ext` with the probe "/images/logo.png" returns the entry
keyed ".png": both entries satisfy their rule for this probe and ".png", the
shorter key, is the first in index order.  The entry keyed "/images" is
returned (prefix rule) for the probe "/images/logo.gif", which ".png" does not
end. -/
theorem path_or_ext_first_rule :
    rules_inserted.map logical_keys =
      .ok [some [46, 112, 110, 103], some [47, 105, 109, 97, 103, 101, 115]] ∧
    rules_replaced = rules_inserted ∧
    rules_inserted.bind (fun a => array_match_path_or_ext a logo_png) =
      .ok (some png_entry) ∧
    path_or_ext_rule logo_png.ptr (buffer_string_length logo_png) images_entry ∧
    path_or_ext_rule logo_png.ptr (buffer_string_length logo_png) png_entry ∧
    rules_inserted.bind (fun a => array_match_path_or_ext a logo_gif) =
      .ok (some images_entry) := by
  decide

/-- C13: on a container whose logical slots hold entries, for a probe `s` of
length `slen`: `array_match_key_prefix_klen` returns the logical entry at the
smallest index `i < used` whose key length `klen` satisfies `klen <= slen` and
whose key bytes equal the first `klen` bytes of `s`, and returns NULL exactly
when no logical entry satisfies this; `array_match_key_suffix` does the same
with the last `klen` bytes of the probe.  An entry whose key is longer than the
probe is never returned. -/
theorem array_match_key_first (a : array) (s : List Byte) (slen : Nat) (b : buffer)
    (hslots : ∀ i, i < a.used → ∃ e, a.data[i]? = some (some e)) :
    ((∃ j e, j < a.used ∧ a.data[j]? = some (some e) ∧ key_starts s slen e ∧
        (∀ j' e', j' < j → a.data[j']? = some (some e') → ¬ key_starts s slen e') ∧
        array_match_key_prefix_klen a s slen = .ok (some e)) ∨
     ((∀ j e, j < a.used → a.data[j]? = some (some e) → ¬ key_starts s slen e) ∧
        array_match_key_prefix_klen a s slen = .ok none)) ∧
    ((∃ j e, j < a.used ∧ a.data[j]? = some (some e) ∧
        key_ends b.ptr (buffer_string_length b) e ∧
        (∀ j' e', j' < j → a.data[j']? = some (some e') →
          ¬ key_ends b.ptr (buffer_string_length b) e') ∧
        array_match_key_suffix a b = .ok (some e)) ∨
     ((∀ j e, j < a.used → a.data[j]? = some (some e) →
          ¬ key_ends b.ptr (buffer_string_length b) e) ∧
        array_match_key_suffix a b = .ok none)) ∧
    (∀ e, array_match_key_prefix_klen a s slen = .ok (some e) →
      buffer_string_length e.key ≤ slen) ∧
    (∀ e, array_match_key_suffix a b = .ok (some e) →
      buffer_string_length e.key ≤ buffer_string_length b) := by
  have hp := scan_slots_all a (key_starts s slen) hslots
  have hq := scan_slots_all a (key_ends b.ptr (buffer_string_length b)) hslots
  rw [← array_match_key_prefix_klen_loop_scan] at hp
  rw [← array_match_key_suffix_loop_scan] at hq
  refine ⟨hp, hq, ?_, ?_⟩
  · intro e he
    rcases hp with ⟨j, e', _, _, h3, _, h5⟩ | ⟨_, h2⟩
    · have h6 : array_match_key_prefix_klen a s slen = .ok (some e') := h5
      rw [h6] at he
      have : e' = e := by simpa using he
      subst this
      exact h3.1
    · have h6 : array_match_key_prefix_klen a s slen = .ok none := h2
      rw [h6] at he
      cases he
  · intro e he
    rcases hq with ⟨j, e', _, _, h3, _, h5⟩ | ⟨_, h2⟩
    · have h6 : array_match_key_suffix a b = .ok (some e') := h5
      rw [h6] at he
      have : e' = e := by simpa using he
      subst this
      exact h3.1
    · have h6 : array_match_key_suffix a b = .ok none := h2
      rw [h6] at he
      cases he

/-- Witness for C13: the sample container, whose three logical slots hold
entries, and the probe "bZ" for both matches: the first disjunct of the prefix part must
hold, since the key "b" starts the probe. -/
theorem array_match_key_first_witness :
    (∀ i, i < sample_array.used → ∃ e, sample_array.data[i]? = some (some e)) ∧
    (∃ j e, j < sample_array.used ∧ sample_array.data[j]? = some (some e) ∧
        key_starts [98, 90] 2 e ∧
        (∀ j' e', j' < j → sample_array.data[j']? = some (some e') →
          ¬ key_starts [98, 90] 2 e') ∧
        array_match_key_prefix_klen sample_array [98, 90] 2 = .ok (some e)) ∧
    (∀ e, array_match_key_suffix sample_array (key_buffer [98, 90]) = .ok (some e) →
      buffer_string_length e.key ≤ buffer_string_length (key_buffer [98, 90])) :=
  have hslots : ∀ i, i < sample_array.used → ∃ e, sample_array.data[i]? = some (some e) := by
    intro i hi
    have hi3 : i < 3 := hi
    interval_cases i <;> exact ⟨_, rfl⟩
  have h := array_match_key_first sample_array [98, 90] 2 (key_buffer [98, 90]) hslots
  ⟨hslots, h.1.resolve_right (fun hn => absurd hn.2 (by decide)), h.2.2.2⟩

/-- C14: on a sorted keyed container that does not hold the key `k`,
`array_extract_element_klen(a, k)` returns NULL and leaves the container
unchanged: `used`, `size` and every slot are the same as before. -/
theorem array_extract_element_klen_noop (a : array) (k : List Byte) (klen : Nat)
    (hs : sorted_keyed a)
    (habsent : ∀ i e, i < a.used → a.data[i]? = some (some e) → entry_keycmp k klen e ≠ 0) :
    array_extract_element_klen a k klen = .ok (none, a) := by
  obtain ⟨p, _, h2, _, _⟩ := array_get_index_absent hs k klen
    (fun i e hi he hr => habsent i e hi he ((entry_keycmp_rank _ _ _).2.1.2 hr))
  exact array_extract_element_klen_absent a k klen p h2

/-- Witness for C14: the key "a" is not in the sample container. -/
theorem array_extract_element_klen_noop_witness :
    array_extract_element_klen sample_array [97] 1 = .ok (none, sample_array) :=
  array_extract_element_klen_noop sample_array [97] 1 (by decide) (by
    intro i e hi he
    have hi3 : i < 3 := hi
    interval_cases i <;> (simp [sample_array] at he; subst he; decide))

/-- C16: for every well-formed container whose `n = used` logical entries are
all of string kind, `array_reset_data_strings` returns with `used = 0`, the
same capacity and every slot still holding the allocation it held; and for
every run of `m ≤ n` string insertions after it (`array_insert_value`, or
`array_get_buf_ptr` with a key that fits a buffer), every prefix of the run
returns with no entry allocated and none freed and leaves the capacity as it
was, and the next call of the run again allocates and frees nothing and, when
it inserts (`array_insert_value`, or `array_get_buf_ptr` with an absent key),
puts in the allocation that the cached slot at index `used` held. -/
theorem string_slot_reuse (BUFFER_MAX_REUSE_SIZE : Nat) (a : array) (ops : List string_op)
    (hok : array_ok a)
    (hstr : ∀ i e, i < a.used → a.data[i]? = some (some e) → e.type = data_type_t.TYPE_STRING)
    (hm : ops.length ≤ a.used) (hfit : ∀ op ∈ ops, op.fits) :
    ∃ a0, array_reset_data_strings BUFFER_MAX_REUSE_SIZE a = .ok a0 ∧ a0.used = 0 ∧
      a0.size = a.size ∧
      (∀ j : Nat, (a0.data[j]?).map (Option.map data_unset.addr) =
        (a.data[j]?).map (Option.map data_unset.addr)) ∧
      ∀ k, k ≤ ops.length →
        ∃ ak, run_string_ops a0 (ops.take k) = .ok (ak, []) ∧ ak.used ≤ k ∧
          ak.size = a.size ∧
          ∀ op, ops[k]? = some op →
            ∃ ak', op.run ak = .ok (ak', []) ∧ (op.absent ak → reused_cached ak ak') := by
  obtain ⟨h1, h2, h3⟩ := hok
  obtain ⟨a0, r1, r2, r3, r4⟩ := array_reset_data_strings_spec BUFFER_MAX_REUSE_SIZE a
    (fun i hi => (h3 i hi).imp (fun _ h => h.1))
  have hI : refilling a.used a0 := by
    refine ⟨by omega, by rw [r3]; exact h1, h2, ?_, ?_⟩
    · intro i hi
      obtain ⟨e, he, _⟩ := h3 i hi
      refine ⟨reset_strings BUFFER_MAX_REUSE_SIZE e, ?_, ?_⟩
      · rw [r4 i, if_pos hi, he]
        rfl
      · rw [reset_strings_type]
        exact hstr i e hi he
    · intro i hi
      omega
  refine ⟨a0, r1, r2, r3, ?_, ?_⟩
  · intro j
    rw [r4 j]
    by_cases c : j < a.used
    · rw [if_pos c]
      obtain ⟨e, he, _⟩ := h3 j c
      rw [he]
      simp [reset_strings_addr]
    · rw [if_neg c]
  · intro k hk
    obtain ⟨ak, s1, _, s3, s4, s5⟩ :=
      run_string_ops_refill a.used ops a0 hI (by omega) hfit k hk
    exact ⟨ak, s1, by omega, by rw [s4, r3], s5⟩

/-- Witness for C16: the sample container of three string entries, reset with a
reuse ceiling of 4096 and refilled by three string insertions. -/
theorem string_slot_reuse_witness :
    array_ok sample_strings ∧
    (∀ i e, i < sample_strings.used → sample_strings.data[i]? = some (some e) →
      e.type = data_type_t.TYPE_STRING) ∧
    sample_string_ops.length ≤ sample_strings.used ∧
    (∀ op ∈ sample_string_ops, op.fits) ∧
    ∃ a0, array_reset_data_strings 4096 sample_strings = .ok a0 ∧ a0.used = 0 ∧
      a0.size = sample_strings.size ∧
      (∀ j : Nat, (a0.data[j]?).map (Option.map data_unset.addr) =
        (sample_strings.data[j]?).map (Option.map data_unset.addr)) ∧
      ∀ k, k ≤ sample_string_ops.length →
        ∃ ak, run_string_ops a0 (sample_string_ops.take k) = .ok (ak, []) ∧ ak.used ≤ k ∧
          ak.size = sample_strings.size ∧
          ∀ op, sample_string_ops[k]? = some op →
            ∃ ak', op.run ak = .ok (ak', []) ∧ (op.absent ak → reused_cached ak ak') :=
  have hstr : ∀ i e, i < sample_strings.used → sample_strings.data[i]? = some (some e) →
      e.type = data_type_t.TYPE_STRING := by
    intro i e hi he
    have hi3 : i < 3 := hi
    interval_cases i <;> (simp [sample_strings] at he; subst he; rfl)
  ⟨by decide, hstr, by decide, by decide,
    string_slot_reuse 4096 sample_strings sample_string_ops (by decide) hstr (by decide)
      (by decide)⟩

/-- C17: `array_insert_data_at_pos(a, e, pos)` with `pos <= used` on a container
with `used <= size`.  It stops on its `force_assert` when the container holds
`INT32_MAX` entries.  Otherwise it returns: `used` is increased by one, the slots
`[0, pos)` are unchanged, slot `pos` holds `e`, the former slots `[pos, used)` are
moved to `[pos+1, used+1)` in the same order, `size` grows by exactly 16 if and
only if `size = used` beforehand (the new slots beyond the new `used` are
empty), the old slots beyond the new `used` are unchanged, and the cached entry
that sat at the old index `used`, if any, is freed, once, nothing else being
freed. -/
theorem array_insert_data_at_pos_frame (a : array) (entry : data_unset) (pos : Nat)
    (hsz : a.used ≤ a.size) (hpos : pos ≤ a.used) :
    (a.used = 2147483647 → array_insert_data_at_pos a entry pos = .error .assertion) ∧
    (a.used < 2147483647 →
      ∃ a' evs, array_insert_data_at_pos a entry pos = .ok (a', evs) ∧
        a'.used = a.used + 1 ∧
        (∀ i, i < pos → a'.data[i]? = a.data[i]?) ∧
        a'.data[pos]? = some (some entry) ∧
        (∀ i, pos < i → i ≤ a.used → a'.data[i]? = a.data[i - 1]?) ∧
        a'.size = (if a.size = a.used then a.size + 16 else a.size) ∧
        (∀ i, a.used < i → i < a.size → a'.data[i]? = a.data[i]?) ∧
        (∀ i, a.used < i → a.size ≤ i → i < a'.size → a'.data[i]? = some none) ∧
        evs = (match a.data[a.used]? with
          | some (some p) => [Event.free p]
          | _ => [])) := by
  refine ⟨array_insert_data_at_pos_full a entry pos, ?_⟩
  intro hroom
  obtain ⟨a', h1, h2, h3, h4, h5⟩ := array_insert_data_at_pos_ok a entry pos hsz hroom hpos
  have hgl := grown_length a
  refine ⟨a', cached_free a, h1, h2, ?_, ?_, ?_, by rw [h3, hgl], ?_, ?_, cached_free_eq a hsz⟩
  · intro i hi
    rw [h5 i, if_pos hi, grown_get_lt a i (by omega)]
  · rw [h5 pos]
    simp
  · intro i hi1 hi2
    rw [h5 i, if_neg (by omega), if_neg (by omega), if_pos hi2, grown_get_lt a _ (by omega)]
  · intro i hi1 hi2
    rw [h5 i, if_neg (by omega), if_neg (by omega), if_neg (by omega), grown_get_lt a i hi2]
  · intro i hi1 hi2 hi3
    have hfull : a.size = a.used := by
      by_contra hc
      rw [h3, hgl, if_neg hc] at hi3
      omega
    rw [h3, hgl, if_pos hfull] at hi3
    rw [h5 i, if_neg (by omega), if_neg (by omega), if_neg (by omega),
      grown_get_new a i hfull hi2 hi3]

/-- Witness for C17: putting an entry in at index 1 of the sample container
(three entries, capacity 4): the entry lands in slot 1 and `size` stays 4. -/
theorem array_insert_data_at_pos_frame_witness :
    ∃ a' evs, array_insert_data_at_pos sample_array
        (sample_entry 9 [99] data_type_t.TYPE_STRING) 1 = .ok (a', evs) ∧
      a'.used = sample_array.used + 1 ∧
      (∀ i, i < 1 → a'.data[i]? = sample_array.data[i]?) ∧
      a'.data[1]? = some (some (sample_entry 9 [99] data_type_t.TYPE_STRING)) ∧
      (∀ i, 1 < i → i ≤ sample_array.used → a'.data[i]? = sample_array.data[i - 1]?) ∧
      a'.size = (if sample_array.size = sample_array.used then sample_array.size + 16
        else sample_array.size) ∧
      (∀ i, sample_array.used < i → i < sample_array.size →
        a'.data[i]? = sample_array.data[i]?) ∧
      (∀ i, sample_array.used < i → sample_array.size ≤ i → i < a'.size →
        a'.data[i]? = some none) ∧
      evs = (match sample_array.data[sample_array.used]? with
        | some (some p) => [Event.free p]
        | _ => []) :=
  (array_insert_data_at_pos_frame sample_array (sample_entry 9 [99] data_type_t.TYPE_STRING) 1
    (by decide) (by decide)).2 (by decide)

/-- C18: on a sorted keyed container that holds the key `k` at index `pos`,
`array_extract_element_klen(a, k)` returns the entry that was at `pos` (the call
frees nothing: the function reaches no `free`), decrements `used` by one, leaves
the slots `[0, pos)` unchanged, moves the former slots `[pos+1, used)` to
`[pos, used-1)` in the same order, sets the vacated slot at the new index
`used` to empty, and leaves `size` and the cached slots beyond the old `used`
unchanged. -/
theorem array_extract_element_klen_frame (a : array) (k : List Byte) (klen : Nat)
    (pos : Nat) (e : data_unset) (hs : sorted_keyed a) (hpos : pos < a.used)
    (he : a.data[pos]? = some (some e)) (hc : entry_keycmp k klen e = 0) :
    ∃ a', array_extract_element_klen a k klen = .ok (some e, a') ∧
      a'.used + 1 = a.used ∧
      (∀ i, i < pos → a'.data[i]? = a.data[i]?) ∧
      (∀ i, pos ≤ i → i < a'.used → a'.data[i]? = a.data[i + 1]?) ∧
      a'.data[a'.used]? = some none ∧
      a'.size = a.size ∧
      (∀ i, a.used ≤ i → a'.data[i]? = a.data[i]?) := by
  obtain ⟨hsz, hmax, _⟩ := hs.1
  have hidx := array_get_index_found hs k klen hpos he ((entry_keycmp_rank _ _ _).2.1.1 hc)
  obtain ⟨a', h1, h2, h3, h4⟩ :=
    array_extract_element_klen_found a k klen pos (some e) hsz hmax hpos he hidx
  refine ⟨a', h1, by omega, ?_, ?_, ?_, h3, ?_⟩
  · intro i hi
    rw [h4 i, if_pos hi]
  · intro i hi1 hi2
    rw [h4 i, if_neg (by omega), if_pos (by omega)]
  · rw [h4 a'.used, if_neg (by omega), if_neg (by omega), if_pos h2]
  · intro i hi
    rw [h4 i, if_neg (by omega), if_neg (by omega), if_neg (by omega)]

/-- Witness for C18: removing "Z" (index 1) from the sample container. -/
theorem array_extract_element_klen_frame_witness :
    ∃ a', array_extract_element_klen sample_array [122] 1 =
        .ok (some (sample_entry 2 [90] data_type_t.TYPE_STRING), a') ∧
      a'.used + 1 = sample_array.used ∧
      (∀ i, i < 1 → a'.data[i]? = sample_array.data[i]?) ∧
      (∀ i, 1 ≤ i → i < a'.used → a'.data[i]? = sample_array.data[i + 1]?) ∧
      a'.data[a'.used]? = some none ∧
      a'.size = sample_array.size ∧
      (∀ i, sample_array.used ≤ i → a'.data[i]? = sample_array.data[i]?) :=
  array_extract_element_klen_frame sample_array [122] 1 1
    (sample_entry 2 [90] data_type_t.TYPE_STRING) (by decide) (by decide) (by decide)
    (by decide)

/-- C19, refuted as stated: the container holds one logical entry, inserted by
`array_insert_value` with an entry from `data_string_init`, whose key is empty
and has no block.  For the probe "x" that entry is no longer than the probe and
satisfies the rule as stated (its first byte is not '/', and its zero bytes
end the probe), so the claim has it returned; the code reads `*(key->ptr)`
through a NULL pointer (array.c:474), which is undefined. -/
theorem path_or_ext_null_key :
    ∃ a evs e, value_list = .ok (a, evs) ∧ 0 < a.used ∧ a.data[0]? = some (some e) ∧
      e.key.ptr = [] ∧
      path_or_ext_rule (key_buffer [120]).ptr (buffer_string_length (key_buffer [120])) e ∧
      array_match_path_or_ext a (key_buffer [120]) = .error .undefined := by
  refine ⟨_, _, _, rfl, ?_, rfl, ?_, ?_, ?_⟩ <;> decide

/-- C19, amended: on a container whose logical slots hold entries and in which
every logical entry whose key is no longer than the probe `b` has a key with a
block (`key->ptr` is not NULL, as for every entry whose key was set),
`array_match_path_or_ext` returns the logical entry at the smallest index
`i < used` whose key is no longer than the probe and which satisfies the rule of
that entry (if the first byte of the key is '/', the key equals the first
`klen` bytes of the probe; otherwise the key equals the last `klen` bytes of
the probe), and it returns NULL exactly when no logical entry satisfies its
rule. -/
theorem array_match_path_or_ext_first (a : array) (b : buffer)
    (hslots : ∀ i, i < a.used → ∃ e, a.data[i]? = some (some e))
    (hkeys : ∀ j e, j < a.used → a.data[j]? = some (some e) →
      buffer_string_length e.key ≤ buffer_string_length b → e.key.ptr ≠ []) :
    (∃ j e, j < a.used ∧ a.data[j]? = some (some e) ∧
        path_or_ext_rule b.ptr (buffer_string_length b) e ∧
        (∀ j' e', j' < j → a.data[j']? = some (some e') →
          ¬ path_or_ext_rule b.ptr (buffer_string_length b) e') ∧
        array_match_path_or_ext a b = .ok (some e)) ∨
    ((∀ j e, j < a.used → a.data[j]? = some (some e) →
          ¬ path_or_ext_rule b.ptr (buffer_string_length b) e) ∧
        array_match_path_or_ext a b = .ok none) := by
  have hp := scan_slots_all a (path_or_ext_rule b.ptr (buffer_string_length b)) hslots
  rw [← array_match_path_or_ext_loop_scan a b (buffer_string_length b) hkeys a.used 0
    (by omega)] at hp
  exact hp

/-- Witness for C19, amended: the sample container, whose three logical slots
hold entries with keys that have a block, and the probe "xb": the key "b" does
not start with '/' and ends the probe, so an entry is returned. -/
theorem array_match_path_or_ext_first_witness :
    (∀ i, i < sample_array.used → ∃ e, sample_array.data[i]? = some (some e)) ∧
    (∀ j e, j < sample_array.used → sample_array.data[j]? = some (some e) →
      buffer_string_length e.key ≤ buffer_string_length (key_buffer [120, 98]) →
      e.key.ptr ≠ []) ∧
    ∃ j e, j < sample_array.used ∧ sample_array.data[j]? = some (some e) ∧
      path_or_ext_rule (key_buffer [120, 98]).ptr
        (buffer_string_length (key_buffer [120, 98])) e ∧
      (∀ j' e', j' < j → sample_array.data[j']? = some (some e') →
        ¬ path_or_ext_rule (key_buffer [120, 98]).ptr
          (buffer_string_length (key_buffer [120, 98])) e') ∧
      array_match_path_or_ext sample_array (key_buffer [120, 98]) = .ok (some e) :=
  have hslots : ∀ i, i < sample_array.used → ∃ e, sample_array.data[i]? = some (some e) := by
    intro i hi
    have hi3 : i < 3 := hi
    interval_cases i <;> exact ⟨_, rfl⟩
  have hkeys : ∀ j e, j < sample_array.used → sample_array.data[j]? = some (some e) →
      buffer_string_length e.key ≤ buffer_string_length (key_buffer [120, 98]) →
      e.key.ptr ≠ [] := by
    intro j e hj he _
    have hj3 : j < 3 := hj
    interval_cases j <;> (simp [sample_array] at he; subst he; decide)
  ⟨hslots, hkeys, (array_match_path_or_ext_first sample_array (key_buffer [120, 98])
    hslots hkeys).resolve_right (fun hn => absurd hn.2 (by decide))⟩

/-- C20: `array_keycmp` induces a strict total order on keys modulo ASCII case
folding.  For all keys `a`, `b`, `c`: the sign of `array_keycmp(a, b)` is the
negation of the sign of `array_keycmp(b, a)`; `array_keycmp(a, b) < 0` and
`array_keycmp(b, c) < 0` imply `array_keycmp(a, c) < 0`; and
`array_keycmp(a, b) = 0` is reflexive, symmetric and transitive, and a
congruence for the order: keys that compare equal compare alike, on either
side, against every third key. -/
theorem array_keycmp_total_order (a : List Byte) (alen : Nat) (b : List Byte) (blen : Nat)
    (c : List Byte) (clen : Nat) :
    Int.sign (array_keycmp a alen b blen) = -Int.sign (array_keycmp b blen a alen) ∧
    (array_keycmp a alen b blen < 0 → array_keycmp b blen c clen < 0 →
      array_keycmp a alen c clen < 0) ∧
    array_keycmp a alen a alen = 0 ∧
    (array_keycmp a alen b blen = 0 → array_keycmp b blen a alen = 0) ∧
    (array_keycmp a alen b blen = 0 → array_keycmp b blen c clen = 0 →
      array_keycmp a alen c clen = 0) ∧
    (array_keycmp a alen b blen = 0 →
      Int.sign (array_keycmp a alen c clen) = Int.sign (array_keycmp b blen c clen) ∧
      Int.sign (array_keycmp c clen a alen) = Int.sign (array_keycmp c clen b blen)) := by
  obtain ⟨ab1, ab2, _⟩ := array_keycmp_rank a alen b blen
  obtain ⟨bc1, bc2, _⟩ := array_keycmp_rank b blen c clen
  obtain ⟨ac1, ac2, _⟩ := array_keycmp_rank a alen c clen
  obtain ⟨_, ba2, _⟩ := array_keycmp_rank b blen a alen
  obtain ⟨_, aa2, _⟩ := array_keycmp_rank a alen a alen
  refine ⟨?_, ?_, aa2.2 rfl, ?_, ?_, ?_⟩
  · rw [array_keycmp_sign, array_keycmp_sign]
    split_ifs <;> first | rfl | omega
  · intro h1 h2
    have := ab1.1 h1
    have := bc1.1 h2
    exact ac1.2 (by omega)
  · intro h
    exact ba2.2 (ab2.1 h).symm
  · intro h1 h2
    have := ab2.1 h1
    have := bc2.1 h2
    exact ac2.2 (by omega)
  · intro h
    have hr := ab2.1 h
    refine ⟨?_, ?_⟩
    · rw [array_keycmp_sign, array_keycmp_sign, hr]
    · rw [array_keycmp_sign, array_keycmp_sign, hr]

/-- Witness for C20: "a" sorts before "B", "B" before "aa", hence "a" before
"aa"; and "b" compares equal to "B". -/
theorem array_keycmp_total_order_witness :
    array_keycmp [97] 1 [97, 97] 2 < 0 ∧ array_keycmp [66] 1 [98] 1 = 0 :=
  ⟨(array_keycmp_total_order [97] 1 [66] 1 [97, 97] 2).2.1 (by decide) (by decide),
   (array_keycmp_total_order [98] 1 [66] 1 [] 0).2.2.2.1 (by decide)⟩

/-- C21: no entry is ever held by two slots.  On a container with
`used <= size` and `used <= INT32_MAX` whose occupied slots in `[0, size)`
hold pairwise distinct entries:
`array_insert_data_at_pos` at `pos <= used` of an entry that no slot holds
stops on its `force_assert` (only at `used = INT32_MAX`) or returns;
`array_get_unused_element` returns; `array_extract_element_klen` on a
well-formed container returns; `array_replace` on a well-formed container of
an entry that no slot holds stops on a `force_assert` (only at
`used = INT32_MAX`) or returns.  After each call that returns, the occupied
slots of `[0, size)` still hold pairwise distinct entries, none of which the
call has freed, and the call followed by `array_free_data` frees exactly once
each entry that the container owns (the entries held before, with the entry
put in, without the entry handed to the caller) and frees no other entry. -/
theorem entries_held_once (a : array) (entry : data_unset) (pos : Nat) (t : data_type_t)
    (k : List Byte) (klen : Nat) (hsz : a.used ≤ a.size) (hmax : a.used ≤ 2147483647)
    (hnd : (owned_addrs a).Nodup) :
    (pos ≤ a.used → entry.addr ∉ owned_addrs a →
      ((a.used = 2147483647 ∧ array_insert_data_at_pos a entry pos = .error .assertion) ∨
       ∃ a' evs, array_insert_data_at_pos a entry pos = .ok (a', evs) ∧
         frees_once (entry.addr :: owned_addrs a) a' evs)) ∧
    frees_once (owned_without a (array_get_unused_element a t).1)
      (array_get_unused_element a t).2 [] ∧
    (array_ok a →
      ∃ r a', array_extract_element_klen a k klen = .ok (r, a') ∧
        frees_once (owned_without a r) a' []) ∧
    (array_ok a → entry.addr ∉ owned_addrs a →
      ((a.used = 2147483647 ∧ array_replace a entry = .error .assertion) ∨
       ∃ a' evs, array_replace a entry = .ok (a', evs) ∧
         frees_once (entry.addr :: owned_addrs a) a' evs)) := by
  refine ⟨?_, array_get_unused_element_once a t hnd,
    fun hok => array_extract_element_klen_once a k klen hok hnd, ?_⟩
  · intro hpos hnew
    by_cases c : a.used = 2147483647
    · exact Or.inl ⟨c, array_insert_data_at_pos_full a entry pos c⟩
    · obtain ⟨a', r1, r2⟩ :=
        array_insert_data_at_pos_once a entry pos hsz (by omega) hpos hnd hnew
      exact Or.inr ⟨a', _, r1, r2⟩
  · intro hok hnew
    exact (array_replace_once a entry hok hnd hnew).symm

/-- Witness for C21: the sample container with two logical entries and the
entry at address 3 cached in slot 2.  Putting the entry at address 9 in at
index 1 returns; the cached entry is freed by the call and by nothing else. -/
theorem entries_held_once_witness :
    sample_cached.used ≤ sample_cached.size ∧ sample_cached.used ≤ 2147483647 ∧
    (owned_addrs sample_cached).Nodup ∧
    ∃ a' evs,
      array_insert_data_at_pos sample_cached (sample_entry 9 [99] data_type_t.TYPE_STRING) 1 =
        .ok (a', evs) ∧
      frees_once ((sample_entry 9 [99] data_type_t.TYPE_STRING).addr :: owned_addrs sample_cached)
        a' evs :=
  ⟨by decide, by decide, by decide,
    ((entries_held_once sample_cached (sample_entry 9 [99] data_type_t.TYPE_STRING) 1
      data_type_t.TYPE_STRING [90] 1 (by decide) (by decide) (by decide)).1 (by decide)
      (by decide)).resolve_left (fun h => absurd h.1 (by decide))⟩

end Array_c
